import Mathlib

/-!
# Verification of `tools/extract-flag-layers.js`

Shallow embedding of the flag layer extraction pipeline.  The JavaScript
program reads each flag SVG, collects per-color element metadata
(`collectColorMeta`), turns it into layer plans, eagerly expands large
plans (`expandLargePlans` / `splitIntoPieces`), pads the plan list up to
`TARGET_LAYERS` by clip-window splitting, caps it with `selectFinalPlans`,
sorts the plans by brightness/depth, writes one SVG per plan
(`writeLayer`) and records a manifest entry.

Boundary of the embedding: DOM parsing (jsdom), the file system and the
`color` npm library are external collaborators.  The embedding therefore
takes as input the color metadata that `collectColorMeta` produces (a list
of `(colorHex, entries)` pairs, colors in Map insertion order, each entry
carrying the element index and which paint kinds it keeps), and takes the
external `Color(hex).luminosity()` function as a parameter
`lum : String → ℚ` (the real one returns a relative luminance in `[0, 1]`;
the `catch` branch of `brightnessScore` is folded into `lum` as `0`).
Color strings are the canonical lowercase `#rrggbb` outputs of `toHex`,
so `toLowerCase` is the identity on them.  Clip-window coordinates, which
JavaScript holds as floating-point numbers in `[0, 1]`, are embedded as
exact rationals: every clip the program builds is of the form
`x0 + span * (i / n)` with small integers, on which binary floats and
rationals agree for the divisors that matter here only approximately, but
all claims about clips are stated over the embedded arithmetic.
-/

/-- One entry of `collectColorMeta`: an element index plus which paint
kinds (fill / stroke) this color keeps on that element, and whether the
element sits inside `<defs>` (`inDefs`, the `forceTop` source). -/
structure Entry where
  index : Nat
  keepFill : Bool
  keepStroke : Bool
  inDefs : Bool
deriving Repr, DecidableEq, Inhabited

/-- A rectangular clip window in viewport fractions, `{type:'rect'}` in the
source (the cosmetic `orientation` field is not modelled). -/
structure Clip where
  x0 : ℚ
  x1 : ℚ
  y0 : ℚ
  y1 : ℚ
deriving Repr, DecidableEq

/-- A layer plan, mirroring the object literals built in `main` and
`splitIntoPieces`. -/
structure Plan where
  color : String
  entries : List Entry
  clip : Option Clip
  zBase : Nat
  splitOffset : Nat
  splitGeneration : Nat
  forceTop : Bool
  brightness : ℚ
deriving Repr, DecidableEq

instance : Inhabited Plan :=
  ⟨{ color := "", entries := [], clip := none, zBase := 0, splitOffset := 0,
     splitGeneration := 0, forceTop := false, brightness := 0 }⟩

/-- Source constant `const TARGET_LAYERS = 6`. -/
def TARGET_LAYERS : Nat := 6

/-- Source constant `const SPLIT_ENTRY_THRESHOLD = 10`. -/
def SPLIT_ENTRY_THRESHOLD : Nat := 10

/-- Source constant `const SKIP_CODES = new Set(['cp', 'xx', 'um'])`. -/
def SKIP_CODES : List String := ["cp", "xx", "um"]

/-- The score `brightnessScore(hex)`: `0` for a missing color, `-1` for `#ffffff`,
otherwise `Color(hex).luminosity()` (the external luminosity function,
modelled by the parameter `lum`; its `catch → 0` branch is folded into
`lum`). -/
def brightnessScore (lum : String → ℚ) (hex : String) : ℚ :=
  if hex = "" then 0
  else if hex = "#ffffff" then -1
  else lum hex

/-- The function `orderColorsForReveal(colors)`: primaries in order, then the
white/black tail, skipping falsy entries. -/
def isTailColor (h : String) : Bool :=
  h = "#ffffff" || h = "#fff" || h = "#000000" || h = "#000"

def orderColorsForReveal (colors : List String) : List String :=
  let cleaned := colors.filter (fun h => h ≠ "")
  cleaned.filter (fun h => ¬ isTailColor h) ++ cleaned.filter (fun h => isTailColor h)

/-- The default clip used by `splitIntoPieces` when the plan has none:
`{x0:0, x1:1, y0:0, y1:1}`. -/
def defaultClip : Clip := { x0 := 0, x1 := 1, y0 := 0, y1 := 1 }

/-- The clip window of piece `i` of `n`, as computed inside the loop of
`splitIntoPieces`: the parent window is bisected along `x` when the split
generation is even (`'vertical'`), along `y` when odd. -/
def pieceClip (base : Clip) (gen n i : Nat) : Clip :=
  if gen % 2 = 0 then
    let span := max (base.x1 - base.x0) 0
    { x0 := base.x0 + span * ((i : ℚ) / (n : ℚ))
      x1 := base.x0 + span * (((i : ℚ) + 1) / (n : ℚ))
      y0 := base.y0
      y1 := base.y1 }
  else
    let span := max (base.y1 - base.y0) 0
    { x0 := base.x0
      x1 := base.x1
      y0 := base.y0 + span * ((i : ℚ) / (n : ℚ))
      y1 := base.y0 + span * (((i : ℚ) + 1) / (n : ℚ)) }

/-- The function `splitIntoPieces(plan, pieceCount)`: `null` when `pieceCount <= 1`,
otherwise `pieceCount` pieces that keep the parent's color, entries,
zBase, forceTop and brightness, with tiled clip windows, child split
offsets `parent*10 + i` and the split generation bumped by one. -/
def splitIntoPieces (plan : Plan) (pieceCount : Nat) : Option (List Plan) :=
  if pieceCount ≤ 1 then none
  else
    let baseClip := plan.clip.getD defaultClip
    let gen := plan.splitGeneration
    some ((List.range pieceCount).map (fun i =>
      { plan with
        clip := some (pieceClip baseClip gen pieceCount i)
        splitOffset := plan.splitOffset * 10 + i
        splitGeneration := gen + 1 }))

/-- The body of `expandLargePlans` for one plan: plans with fewer entries
than `SPLIT_ENTRY_THRESHOLD` pass through; otherwise the plan is split
into `min(3, ceil(entries/threshold))` pieces (a piece count of `1`,
which happens at exactly the threshold, makes `splitIntoPieces` return
`null` and the plan passes through unchanged). -/
def expandOne (plan : Plan) : List Plan :=
  if plan.entries.length < SPLIT_ENTRY_THRESHOLD then [plan]
  else
    let pieceCount :=
      min 3 ((plan.entries.length + (SPLIT_ENTRY_THRESHOLD - 1)) / SPLIT_ENTRY_THRESHOLD)
    match splitIntoPieces plan pieceCount with
    | some pieces => if pieces.length > 1 then pieces else [plan]
    | none => [plan]

/-- The function `expandLargePlans(plans)`. -/
def expandLargePlans (plans : List Plan) : List Plan :=
  plans.flatMap expandOne

/-- Stable insertion used to model JavaScript's (stable)
`Array.prototype.sort` with a comparator: `lt a b` holds exactly when the
comparator returns a negative number on `(a, b)`; an element is inserted
after every element that must strictly precede it, so equal elements keep
their original relative order. -/
def insertLT (lt : α → α → Bool) (x : α) : List α → List α
  | [] => [x]
  | y :: ys => if lt y x then y :: insertLT lt x ys else x :: y :: ys

def insertionSort (lt : α → α → Bool) : List α → List α
  | [] => []
  | x :: xs => insertLT lt x (insertionSort lt xs)

/-- The entry comparator `(a, b) => a.index - b.index` (negative iff
`a.index < b.index`). -/
def entryLT (a b : Entry) : Bool := a.index < b.index

/-- The depth key of the final ordering comparator:
`zBase * 1000 + splitOffset + (forceTop ? 1_000_000 : 0)`. -/
def depthKey (p : Plan) : Nat :=
  p.zBase * 1000 + p.splitOffset + (if p.forceTop then 1000000 else 0)

/-- The final ordering comparator of `main` (lines 613–623): brightness
descending, ties by ascending depth key.  `depthLT a b` holds exactly when
the comparator returns a negative number on `(a, b)`. -/
def depthLT (a b : Plan) : Bool :=
  if a.brightness ≠ b.brightness then b.brightness < a.brightness
  else depthKey a < depthKey b

/-- The sort `layerPlans.sort(...)` at lines 612–623. -/
def sortPlansForDepth (plans : List Plan) : List Plan :=
  insertionSort depthLT plans

/-! ## `selectFinalPlans`

JavaScript identifies plans by object reference (`included` is a `Set` of
references, `byColor` groups hold references).  In the program every slot
of the `plans` array is a distinct object, so reference identity is
exactly positional identity; the embedding therefore pairs every plan
with its position in the input list. -/

abbrev IPlan := Nat × Plan

/-- Association-list update mirroring `Map.prototype.set` (insertion
order preserved, existing key overwritten). -/
def assocSet [DecidableEq κ] (m : List (κ × Nat)) (k : κ) (v : Nat) : List (κ × Nat) :=
  if m.any (fun q => q.1 = k) then
    m.map (fun q => if q.1 = k then (k, v) else q)
  else m ++ [(k, v)]

/-- The lookup `pointers.get(color) || 0` (also the `baseUsage.get(base) || 0`
pattern). -/
def assocGet [DecidableEq κ] (m : List (κ × Nat)) (k : κ) : Nat :=
  match m.find? (fun q => q.1 = k) with
  | some q => q.2
  | none => 0

/-- Building the `byColor` map: append each indexed plan to its color's
group, creating the group on first sight (Map insertion order). -/
def addToColor (acc : List (String × List IPlan)) (ip : IPlan) : List (String × List IPlan) :=
  if acc.any (fun g => g.1 = ip.2.color) then
    acc.map (fun g => if g.1 = ip.2.color then (g.1, g.2 ++ [ip]) else g)
  else acc ++ [(ip.2.color, [ip])]

def buildByColor (ips : List IPlan) : List (String × List IPlan) :=
  ips.foldl addToColor []

/-- The lookup `byColor.get(color) || []`. -/
def groupGet (byColor : List (String × List IPlan)) (c : String) : List IPlan :=
  match byColor.find? (fun g => g.1 = c) with
  | some g => g.2
  | none => []

/-- The group comparator of `selectFinalPlans`: entry count descending,
then `splitOffset` ascending (negative comparator value). -/
def ipSortLT (a b : IPlan) : Bool :=
  if a.2.entries.length ≠ b.2.entries.length then b.2.entries.length < a.2.entries.length
  else a.2.splitOffset < b.2.splitOffset

/-- The mutable state of `selectFinalPlans`: the plans picked so far, the
`included` identity set (as a list of positions) and the per-color
round-robin pointers. -/
structure SelState where
  finalPlans : List IPlan
  included : List Nat
  pointers : List (String × Nat)
deriving Repr

/-- The first `for (const color of colors)` loop: push each color's head
plan; once the target is reached the function returns, which the
embedding realizes by a heads-up length check (state past the return
point is never touched again, so the results agree). -/
def firstPass (byColor : List (String × List IPlan)) (target : Nat) :
    List String → SelState → SelState
  | [], st => st
  | c :: cs, st =>
    if target ≤ st.finalPlans.length then st
    else
      match groupGet byColor c with
      | [] => firstPass byColor target cs st
      | ip :: _ =>
        firstPass byColor target cs
          { finalPlans := st.finalPlans ++ [ip]
            included := ip.1 :: st.included
            pointers := assocSet st.pointers c 1 }

/-- One round-robin pass over `colors` (the body of the
`while (... madeProgress)` loop); returns the updated state and whether
the pass made progress. -/
def rrPass (byColor : List (String × List IPlan)) (target : Nat) :
    List String → SelState → Bool → SelState × Bool
  | [], st, prog => (st, prog)
  | c :: cs, st, prog =>
    if target ≤ st.finalPlans.length then (st, prog)
    else
      let group := groupGet byColor c
      let idx := assocGet st.pointers c
      if h : idx < group.length then
        let ip := group.get ⟨idx, h⟩
        if st.included.contains ip.1 then
          rrPass byColor target cs { st with pointers := assocSet st.pointers c (idx + 1) } prog
        else
          rrPass byColor target cs
            { finalPlans := st.finalPlans ++ [ip]
              included := ip.1 :: st.included
              pointers := assocSet st.pointers c (idx + 1) } true
      else rrPass byColor target cs st prog

/-- The `while (finalPlans.length < target && madeProgress)` loop.  The
fuel only bounds the number of passes; a pass that makes no progress
stops the loop, and every productive pass grows `finalPlans` by at least
one, so `plans.length + 1` passes always suffice for the loop to reach
its JavaScript fixpoint. -/
def rrLoop (byColor : List (String × List IPlan)) (colors : List String) (target : Nat) :
    Nat → SelState → SelState
  | 0, st => st
  | fuel + 1, st =>
    if target ≤ st.finalPlans.length then st
    else
      match rrPass byColor target colors st false with
      | (st2, true) => rrLoop byColor colors target fuel st2
      | (st2, false) => st2

/-- The final `for (const plan of plans)` fallback loop. -/
def fallbackFill (target : Nat) : List IPlan → SelState → SelState
  | [], st => st
  | ip :: rest, st =>
    if target ≤ st.finalPlans.length then st
    else if st.included.contains ip.1 then fallbackFill target rest st
    else
      fallbackFill target rest
        { st with finalPlans := st.finalPlans ++ [ip], included := ip.1 :: st.included }

/-- The sorted `byColor` map of `selectFinalPlans` (plans indexed by
their position in the input array). -/
def selByColor (plans : List Plan) : List (String × List IPlan) :=
  (buildByColor plans.enum).map (fun g => (g.1, insertionSort ipSortLT g.2))

/-- The `colors` iteration order of `selectFinalPlans`: the ordered
reveal colors followed by the remaining `byColor` keys. -/
def selColors (plans : List Plan) (orderedColors : List String) : List String :=
  orderedColors ++
    ((buildByColor plans.enum).map (fun g => g.1)).filter (fun c => ¬ orderedColors.contains c)

/-- The function `selectFinalPlans(plans, target, orderedColors)`. -/
def selectFinalPlans (plans : List Plan) (target : Nat) (orderedColors : List String) :
    List Plan :=
  if plans.length ≤ target then plans
  else if target ≤ (firstPass (selByColor plans) target (selColors plans orderedColors)
      { finalPlans := [], included := [], pointers := [] }).finalPlans.length then
    ((firstPass (selByColor plans) target (selColors plans orderedColors)
      { finalPlans := [], included := [], pointers := [] }).finalPlans.take target).map
        (fun ip => ip.2)
  else
    ((fallbackFill target plans.enum
      (rrLoop (selByColor plans) (selColors plans orderedColors) target (plans.length + 1)
        (firstPass (selByColor plans) target (selColors plans orderedColors)
          { finalPlans := [], included := [], pointers := [] }))).finalPlans.take target).map
      (fun ip => ip.2)

/-! ## Building the layer plans (`main`, lines 533–577) -/

/-- One step of the consecutive-index grouping loop: `next` joins the
current group when `next.index - prev.index <= 1` where `prev` is the
last entry of the current group. -/
def groupStep (acc : List (List Entry) × List Entry) (next : Entry) :
    List (List Entry) × List Entry :=
  match acc.2.getLast? with
  | some prev =>
    if next.index ≤ prev.index + 1 then (acc.1, acc.2 ++ [next])
    else (acc.1 ++ [acc.2], [next])
  | none => (acc.1, [next])

/-- The grouping loop over the sorted entries, including the final
`if (currentGroup.length) groups.push(currentGroup)`. -/
def groupConsecutive (entries : List Entry) : List (List Entry) :=
  match entries with
  | [] => []
  | e :: rest =>
    let r := rest.foldl groupStep ([], [e])
    r.1 ++ [r.2]

/-- The plan pushed for one group (lines 557–576): `zBase` is
`maxIndex * 10 + offset` with `offset` 2 for a fill-and-stroke entry,
1 for stroke-only groups, else 0; `forceTop` marks groups that use
`<defs>` content. -/
def planOfGroup (lum : String → ℚ) (hex : String) (group : List Entry) : Plan :=
  let maxIndex := group.foldl (fun acc item => max acc item.index) (group.headD default).index
  let anyFill := group.any (fun i => i.keepFill)
  let anyStroke := group.any (fun i => i.keepStroke)
  let anyFillAndStroke := group.any (fun i => i.keepFill && i.keepStroke)
  let offset : Nat := if anyFillAndStroke then 2 else if anyStroke && !anyFill then 1 else 0
  { color := hex
    entries := group
    clip := none
    zBase := maxIndex * 10 + offset
    splitOffset := 0
    splitGeneration := 0
    forceTop := group.any (fun e => e.inDefs)
    brightness := brightnessScore lum hex }

/-- The plans contributed by one reveal color: look its entries up in the
color metadata, sort them by element index, group consecutive indices and
emit one plan per group. -/
def plansForColor (lum : String → ℚ) (meta : List (String × List Entry)) (hex : String) :
    List Plan :=
  match meta.find? (fun g => g.1 = hex) with
  | none => []
  | some g =>
    match insertionSort entryLT g.2 with
    | [] => []
    | e :: rest => (groupConsecutive (e :: rest)).map (planOfGroup lum hex)

/-- The full `layerPlans` array before expansion (the
`colorReveal.forEach` loop). -/
def buildLayerPlans (lum : String → ℚ) (meta : List (String × List Entry)) : List Plan :=
  (orderColorsForReveal (meta.map (fun g => g.1))).flatMap (plansForColor lum meta)

/-! ## Padding up to the target (`main`, lines 581–603) -/

/-- The `while (processedPlans.length < targetLayers && ... && guard < 60)`
loop.  `L0` is `layerPlans.length`, which the loop body reads but never
writes (the splice into `layerPlans` happens only after the loop), and the
fuel is the `guard` budget of 60. -/
def padLoop (L0 : Nat) : Nat → Nat → List Plan → List Plan
  | 0, _, plans => plans
  | fuel + 1, cursor, plans =>
    if 0 < plans.length ∧ plans.length < TARGET_LAYERS then
      let index := cursor % plans.length
      let plan := plans.getD index default
      let remaining : Int := (TARGET_LAYERS : Int) - (L0 : Int)
      let pieceCount : Int := min (remaining + 1) 3
      if pieceCount ≤ 1 then padLoop L0 fuel (cursor + 1) plans
      else
        match splitIntoPieces plan pieceCount.toNat with
        | some pieces =>
          if 1 < pieces.length then
            padLoop L0 fuel (cursor + 1) (plans.take index ++ pieces ++ plans.drop (index + 1))
          else padLoop L0 fuel (cursor + 1) plans
        | none => padLoop L0 fuel (cursor + 1) plans
    else plans

/-! ## The per-image pipeline and the manifest -/

/-- The array `processedPlans` after `expandLargePlans` (line 579). -/
def processedPlans (lum : String → ℚ) (meta : List (String × List Entry)) : List Plan :=
  expandLargePlans (buildLayerPlans lum meta)

/-- The array `processedPlans` after the padding `while` loop (lines 581–603). -/
def paddedPlans (lum : String → ℚ) (meta : List (String × List Entry)) : List Plan :=
  padLoop (buildLayerPlans lum meta).length 60 0 (processedPlans lum meta)

/-- The plan list after the `selectFinalPlans` cap (lines 607–610). -/
def selectedPlans (lum : String → ℚ) (meta : List (String × List Entry)) : List Plan :=
  if TARGET_LAYERS < (paddedPlans lum meta).length then
    selectFinalPlans (paddedPlans lum meta) TARGET_LAYERS
      (orderColorsForReveal (meta.map (fun g => g.1)))
  else paddedPlans lum meta

/-- The final, depth-ordered plan list for one image: build, expand, pad,
cap, sort (lines 533–623). -/
def finalLayerPlans (lum : String → ℚ) (meta : List (String × List Entry)) : List Plan :=
  sortPlansForDepth (selectedPlans lum meta)

/-- The padding `String(index).padStart(2, '0')`. -/
def pad2 (n : Nat) : String := if n < 10 then "0" ++ toString n else toString n

/-- The layer file name built in `writeLayer`:
`cc__NN_rrggbb.svg` (the leading `#` stripped). -/
def layerFileName (cc : String) (index : Nat) (colorHex : String) : String :=
  cc ++ "__" ++ pad2 index ++ "_" ++ (colorHex.replace "#" "") ++ ".svg"

/-- The z-stack values: each plan contributes `zBase + (uses of that zBase
so far)` (the `baseUsage` map). -/
def zStackOf (plans : List Plan) : List Nat :=
  (plans.foldl
    (fun (acc : List Nat × List (Nat × Nat)) plan =>
      let offset := assocGet acc.2 plan.zBase
      (acc.1 ++ [plan.zBase + offset], assocSet acc.2 plan.zBase (offset + 1)))
    ([], [])).1

/-- A manifest entry (`colors`, `files`, `z`, `full`; the geographic
`location` field is data-table lookup with no algorithmic content and is
not modelled). -/
structure ManifestEntry where
  colors : List String
  files : List String
  z : List Nat
  full : String
deriving Repr, DecidableEq

instance : Inhabited ManifestEntry := ⟨{ colors := [], files := [], z := [], full := "" }⟩

/-- The manifest entry written for an image with at least one color:
`writeLayer` always succeeds for a parsed SVG, so `layerSeq` counts up in
step with the plan positions. -/
def manifestEntryFor (lum : String → ℚ) (cc : String) (meta : List (String × List Entry)) :
    ManifestEntry :=
  let plans := finalLayerPlans lum meta
  { colors := plans.map (fun p => p.color)
    files := plans.enum.map (fun ip => layerFileName cc ip.1 ip.2.color)
    z := zStackOf plans
    full := cc ++ "__full.svg" }

/-- The observable outcome of processing one flag file inside the
`for (const file of files)` loop: the manifest entry recorded (if any),
the files written into the flag's output directory, and whether an
existing output directory for the code was cleared. -/
structure FlagOutcome where
  entry : Option ManifestEntry
  writtenFiles : List String
  clearedDir : Bool
deriving Repr, DecidableEq

/-- One iteration of the flag loop (lines 489–650): skip codes are
dropped after clearing their stale directory; an unparseable SVG is
skipped without touching the directory; otherwise the directory is
cleared, the full copy is written, and either the no-color edge case or
the full pipeline produces the manifest entry. -/
def processFlag (lum : String → ℚ) (cc : String) (svgParses : Bool)
    (meta : List (String × List Entry)) : FlagOutcome :=
  if SKIP_CODES.contains cc then
    { entry := none, writtenFiles := [], clearedDir := true }
  else if !svgParses then
    { entry := none, writtenFiles := [], clearedDir := false }
  else
    let fullFileName := cc ++ "__full.svg"
    if meta.map (fun g => g.1) = [] then
      { entry := some { colors := [], files := [fullFileName], z := [], full := fullFileName }
        writtenFiles := [fullFileName]
        clearedDir := true }
    else
      let e := manifestEntryFor lum cc meta
      { entry := some e
        writtenFiles := fullFileName :: e.files
        clearedDir := true }

/-! ## Window sets for clip reasoning -/

/-- The set of viewport points inside a clip window (boundary included),
as rendered by the `<clipPath>` rectangle that `writeLayer` emits. -/
def windowSet (c : Clip) : Set (ℚ × ℚ) :=
  {p | c.x0 ≤ p.1 ∧ p.1 ≤ c.x1 ∧ c.y0 ≤ p.2 ∧ p.2 ≤ c.y1}

/-- The interior of a clip window. -/
def windowInterior (c : Clip) : Set (ℚ × ℚ) :=
  {p | c.x0 < p.1 ∧ p.1 < c.x1 ∧ c.y0 < p.2 ∧ p.2 < c.y1}

/-! ## Concrete fixtures used to witness the theorems -/

/-- A concrete luminosity function (the constant `0`; any value in
`[0, 1]` works, and the plan-count results do not depend on it). -/
def lumZero : String → ℚ := fun _ => 0

/-- A single solid-color image: one color with one fill entry. -/
def entryBlue : Entry := { index := 1, keepFill := true, keepStroke := false, inDefs := false }

def metaSolidBlue : List (String × List Entry) := [("#0000ff", [entryBlue])]

/-- One color painted by two element groups: indices 1–3 (one group of
three consecutive entries) and index 10 (a second group). -/
def metaTwoGroups : List (String × List Entry) :=
  [("#ff0000",
    [{ index := 1, keepFill := true, keepStroke := false, inDefs := false },
     { index := 2, keepFill := true, keepStroke := false, inDefs := false },
     { index := 3, keepFill := true, keepStroke := false, inDefs := false },
     { index := 10, keepFill := true, keepStroke := false, inDefs := false }])]

/-- A plan with 12 entries, above `SPLIT_ENTRY_THRESHOLD`. -/
def bigEntries : List Entry :=
  (List.range 12).map (fun i =>
    { index := i, keepFill := true, keepStroke := false, inDefs := false })

def planBig : Plan :=
  { color := "#ff0000", entries := bigEntries, clip := none, zBase := 0,
    splitOffset := 0, splitGeneration := 0, forceTop := false, brightness := 0 }

/-- Two plans with equal brightness and different entry counts and depth
keys (the larger-entry plan has the smaller depth key). -/
def planWide : Plan :=
  { color := "#ff0000",
    entries := [{ index := 1, keepFill := true, keepStroke := false, inDefs := false },
                { index := 2, keepFill := true, keepStroke := false, inDefs := false },
                { index := 3, keepFill := true, keepStroke := false, inDefs := false }],
    clip := none, zBase := 30, splitOffset := 0, splitGeneration := 0,
    forceTop := false, brightness := 0 }

def planNarrow : Plan :=
  { color := "#ff0000",
    entries := [{ index := 10, keepFill := true, keepStroke := false, inDefs := false }],
    clip := none, zBase := 100, splitOffset := 0, splitGeneration := 0,
    forceTop := false, brightness := 0 }

/-- A plan with a single entry, used to witness `splitIntoPieces`. -/
def planSmall : Plan :=
  { color := "#0000ff", entries := [entryBlue], clip := none, zBase := 10,
    splitOffset := 0, splitGeneration := 0, forceTop := false, brightness := 0 }

/-- Seven plans over two colors (more than `TARGET_LAYERS`), used to
witness the final selection. -/
def wPlans : List Plan :=
  [{ planWide with splitOffset := 0 },
   { planWide with splitOffset := 1 },
   { planWide with splitOffset := 2 },
   { planWide with splitOffset := 10 },
   { planNarrow with color := "#0000ff", splitOffset := 0 },
   { planNarrow with color := "#0000ff", splitOffset := 1 },
   { planNarrow with color := "#0000ff", splitOffset := 2 }]

def wOC : List String := ["#ff0000", "#0000ff"]

/-! ## Generic facts about the stable insertion sort -/

theorem insertLT_perm (lt : α → α → Bool) (x : α) (l : List α) :
    List.Perm (insertLT lt x l) (x :: l) := by
  induction l with
  | nil => rfl
  | cons y ys ih =>
    simp only [insertLT]
    split
    · exact (ih.cons y).trans (List.Perm.swap x y ys)
    · rfl

theorem insertionSort_perm (lt : α → α → Bool) (l : List α) :
    List.Perm (insertionSort lt l) l := by
  induction l with
  | nil => rfl
  | cons x xs ih => exact (insertLT_perm lt x _).trans (ih.cons x)

theorem mem_insertionSort (lt : α → α → Bool) (l : List α) (a : α) :
    a ∈ insertionSort lt l ↔ a ∈ l :=
  (insertionSort_perm lt l).mem_iff

theorem length_insertionSort (lt : α → α → Bool) (l : List α) :
    (insertionSort lt l).length = l.length :=
  (insertionSort_perm lt l).length_eq

theorem mem_insertLT (lt : α → α → Bool) (x z : α) (l : List α) :
    z ∈ insertLT lt x l ↔ z = x ∨ z ∈ l := by
  rw [(insertLT_perm lt x l).mem_iff, List.mem_cons]

/-- Sortedness of the stable insertion sort.  `lt` is a strict weak
order: asymmetric, and a comparison spreads over any third element. -/
theorem pairwise_insertLT {lt : α → α → Bool}
    (hasym : ∀ a b, lt a b = true → lt b a = false)
    (hcmp : ∀ a b c, lt c a = true → lt c b = true ∨ lt b a = true)
    {x : α} {l : List α} (hl : l.Pairwise (fun a b => lt b a = false)) :
    (insertLT lt x l).Pairwise (fun a b => lt b a = false) := by
  induction l with
  | nil => simp [insertLT]
  | cons y ys ih =>
    rcases List.pairwise_cons.mp hl with ⟨hy, hys⟩
    simp only [insertLT]
    by_cases h : lt y x = true
    · rw [if_pos h]
      refine List.pairwise_cons.mpr ⟨?_, ih hys⟩
      intro z hz
      rcases (mem_insertLT lt x z ys).mp hz with rfl | hz
      · exact hasym _ _ h
      · exact hy z hz
    · rw [if_neg h]
      refine List.pairwise_cons.mpr ⟨?_, hl⟩
      intro z hz
      rcases List.mem_cons.mp hz with rfl | hz
      · exact Bool.eq_false_iff.mpr h
      · cases hzx : lt z x with
        | false => rfl
        | true =>
          rcases hcmp x y z hzx with h1 | h1
          · rw [hy z hz] at h1; exact absurd h1 (by simp)
          · exact absurd h1 (by simp [h])

theorem pairwise_insertionSort {lt : α → α → Bool}
    (hasym : ∀ a b, lt a b = true → lt b a = false)
    (hcmp : ∀ a b c, lt c a = true → lt c b = true ∨ lt b a = true)
    (l : List α) :
    (insertionSort lt l).Pairwise (fun a b => lt b a = false) := by
  induction l with
  | nil => simp [insertionSort]
  | cons x xs ih => exact pairwise_insertLT hasym hcmp ih

/-! ## The three comparators are strict weak orders -/

theorem depthLT_iff (a b : Plan) :
    depthLT a b = true ↔
      b.brightness < a.brightness ∨
        (a.brightness = b.brightness ∧ depthKey a < depthKey b) := by
  simp only [depthLT]
  by_cases h : a.brightness = b.brightness
  · simp [h]
  · simp [h]

theorem depthLT_asym (a b : Plan) (h : depthLT a b = true) : depthLT b a = false := by
  rw [Bool.eq_false_iff]
  intro h2
  rw [depthLT_iff] at h h2
  rcases h with h | ⟨he, hd⟩ <;> rcases h2 with h2 | ⟨he2, hd2⟩
  · linarith
  · linarith
  · linarith
  · omega

theorem depthLT_cmp (a b c : Plan) (h : depthLT c a = true) :
    depthLT c b = true ∨ depthLT b a = true := by
  rw [depthLT_iff] at h
  rw [depthLT_iff, depthLT_iff]
  rcases h with h | ⟨he, hd⟩
  · rcases lt_trichotomy b.brightness c.brightness with h1 | h1 | h1
    · exact Or.inl (Or.inl h1)
    · exact Or.inr (Or.inl (by linarith))
    · exact Or.inr (Or.inl (by linarith))
  · rcases lt_trichotomy b.brightness a.brightness with h1 | h1 | h1
    · exact Or.inl (Or.inl (by linarith))
    · rcases Nat.lt_or_ge (depthKey c) (depthKey b) with h2 | h2
      · exact Or.inl (Or.inr ⟨by linarith, h2⟩)
      · exact Or.inr (Or.inr ⟨by linarith, by omega⟩)
    · exact Or.inr (Or.inl h1)

theorem ipSortLT_iff (a b : IPlan) :
    ipSortLT a b = true ↔
      b.2.entries.length < a.2.entries.length ∨
        (a.2.entries.length = b.2.entries.length ∧ a.2.splitOffset < b.2.splitOffset) := by
  simp only [ipSortLT]
  by_cases h : a.2.entries.length = b.2.entries.length
  · simp [h]
  · simp [h]


theorem ipSortLT_asym (a b : IPlan) (h : ipSortLT a b = true) : ipSortLT b a = false := by
  rw [Bool.eq_false_iff]
  intro h2
  rw [ipSortLT_iff] at h h2
  omega

theorem ipSortLT_cmp (a b c : IPlan) (h : ipSortLT c a = true) :
    ipSortLT c b = true ∨ ipSortLT b a = true := by
  rw [ipSortLT_iff] at h
  rw [ipSortLT_iff, ipSortLT_iff]
  omega

theorem entryLT_iff (a b : Entry) : entryLT a b = true ↔ a.index < b.index := by
  simp [entryLT]

theorem entryLT_asym (a b : Entry) (h : entryLT a b = true) : entryLT b a = false := by
  rw [Bool.eq_false_iff]
  intro h2
  rw [entryLT_iff] at h h2
  omega

theorem entryLT_cmp (a b c : Entry) (h : entryLT c a = true) :
    entryLT c b = true ∨ entryLT b a = true := by
  rw [entryLT_iff] at h
  rw [entryLT_iff, entryLT_iff]
  omega

/-! ## Facts about `splitIntoPieces` and `expandLargePlans` -/

/-- The `i`-th piece that `splitIntoPieces plan n` builds. -/
def splitPiece (plan : Plan) (n i : Nat) : Plan :=
  { plan with
    clip := some (pieceClip (plan.clip.getD defaultClip) plan.splitGeneration n i)
    splitOffset := plan.splitOffset * 10 + i
    splitGeneration := plan.splitGeneration + 1 }

theorem splitIntoPieces_eq_none (plan : Plan) (n : Nat) (hn : n ≤ 1) :
    splitIntoPieces plan n = none := by
  simp [splitIntoPieces, hn]

theorem splitIntoPieces_eq (plan : Plan) (n : Nat) (hn : 2 ≤ n) :
    splitIntoPieces plan n = some ((List.range n).map (splitPiece plan n)) := by
  simp only [splitIntoPieces]
  rw [if_neg (by omega)]
  rfl

theorem splitIntoPieces_length (plan : Plan) (n : Nat) (hn : 2 ≤ n) (pieces : List Plan)
    (h : splitIntoPieces plan n = some pieces) : pieces.length = n := by
  rw [splitIntoPieces_eq plan n hn] at h
  cases h
  simp

theorem splitPiece_fields (plan : Plan) (n i : Nat) :
    (splitPiece plan n i).color = plan.color ∧
    (splitPiece plan n i).entries = plan.entries ∧
    (splitPiece plan n i).zBase = plan.zBase ∧
    (splitPiece plan n i).brightness = plan.brightness ∧
    (splitPiece plan n i).forceTop = plan.forceTop ∧
    (splitPiece plan n i).splitGeneration = plan.splitGeneration + 1 ∧
    (splitPiece plan n i).splitOffset = plan.splitOffset * 10 + i ∧
    (splitPiece plan n i).clip =
      some (pieceClip (plan.clip.getD defaultClip) plan.splitGeneration n i) := by
  simp [splitPiece]

theorem mem_splitIntoPieces (plan : Plan) (n : Nat) (pieces : List Plan)
    (h : splitIntoPieces plan n = some pieces) (q : Plan) (hq : q ∈ pieces) :
    ∃ i, i < n ∧ q = splitPiece plan n i := by
  by_cases hn : 2 ≤ n
  · rw [splitIntoPieces_eq plan n hn] at h
    cases h
    rcases List.mem_map.mp hq with ⟨i, hi, rfl⟩
    exact ⟨i, List.mem_range.mp hi, rfl⟩
  · rw [splitIntoPieces_eq_none plan n (by omega)] at h
    cases h

theorem expandOne_ne_nil (plan : Plan) : 1 ≤ (expandOne plan).length := by
  unfold expandOne
  split
  · simp
  · show 1 ≤ (match splitIntoPieces plan
        (min 3 ((plan.entries.length + (SPLIT_ENTRY_THRESHOLD - 1)) / SPLIT_ENTRY_THRESHOLD)) with
      | some pieces => if pieces.length > 1 then pieces else [plan]
      | none => [plan]).length
    cases h : splitIntoPieces plan
        (min 3 ((plan.entries.length + (SPLIT_ENTRY_THRESHOLD - 1)) / SPLIT_ENTRY_THRESHOLD)) with
    | some pieces =>
      simp only []
      by_cases h2 : pieces.length > 1
      · rw [if_pos h2]
        omega
      · rw [if_neg h2]
        simp
    | none => simp

theorem expandLargePlans_length_ge (plans : List Plan) :
    plans.length ≤ (expandLargePlans plans).length := by
  unfold expandLargePlans
  induction plans with
  | nil => simp
  | cons p ps ih =>
    simp only [List.flatMap_cons, List.length_append, List.length_cons]
    have := expandOne_ne_nil p
    omega

/-! ## The padding loop reaches the target -/

theorem padLoop_of_ge (L0 fuel cursor : Nat) (plans : List Plan)
    (h : TARGET_LAYERS ≤ plans.length) : padLoop L0 fuel cursor plans = plans := by
  cases fuel with
  | zero => rfl
  | succ fuel =>
    rw [padLoop, if_neg]
    intro hc
    omega

/-- One productive iteration of the padding loop: when the list is short
of the target and the original plan count allows a piece count of at
least 2, the indexed plan is replaced by its pieces. -/
theorem padLoop_step (L0 fuel cursor : Nat) (plans : List Plan)
    (hc : 0 < plans.length ∧ plans.length < TARGET_LAYERS) (hL0 : L0 ≤ 5) :
    padLoop L0 (fuel + 1) cursor plans =
      padLoop L0 fuel (cursor + 1)
        (plans.take (cursor % plans.length) ++
          (List.range (min ((TARGET_LAYERS : Int) - (L0 : Int) + 1) 3).toNat).map
            (splitPiece (plans.getD (cursor % plans.length) default)
              (min ((TARGET_LAYERS : Int) - (L0 : Int) + 1) 3).toNat) ++
          plans.drop (cursor % plans.length + 1)) := by
  have hpc2 : 2 ≤ (min ((TARGET_LAYERS : Int) - (L0 : Int) + 1) 3).toNat := by
    unfold TARGET_LAYERS
    omega
  rw [padLoop, if_pos hc]
  rw [if_neg (by unfold TARGET_LAYERS at hc ⊢; omega)]
  rw [splitIntoPieces_eq _ _ hpc2]
  simp only []
  rw [if_pos (by simpa using by omega)]

theorem padLoop_length (L0 : Nat) (hL0 : L0 ≤ 5) :
    ∀ fuel cursor plans, 0 < plans.length →
      min TARGET_LAYERS (plans.length + fuel) ≤ (padLoop L0 fuel cursor plans).length := by
  intro fuel
  induction fuel with
  | zero =>
    intro cursor plans h
    simp only [padLoop, Nat.add_zero]
    omega
  | succ fuel ih =>
    intro cursor plans hpos
    by_cases hc : 0 < plans.length ∧ plans.length < TARGET_LAYERS
    · rw [padLoop_step L0 fuel cursor plans hc hL0]
      have hpc2 : 2 ≤ (min ((TARGET_LAYERS : Int) - (L0 : Int) + 1) 3).toNat := by
        unfold TARGET_LAYERS
        omega
      have hidx : cursor % plans.length < plans.length := Nat.mod_lt _ hpos
      have hlen :
          (plans.take (cursor % plans.length) ++
            (List.range (min ((TARGET_LAYERS : Int) - (L0 : Int) + 1) 3).toNat).map
              (splitPiece (plans.getD (cursor % plans.length) default)
                (min ((TARGET_LAYERS : Int) - (L0 : Int) + 1) 3).toNat) ++
            plans.drop (cursor % plans.length + 1)).length =
          cursor % plans.length + (min ((TARGET_LAYERS : Int) - (L0 : Int) + 1) 3).toNat +
            (plans.length - (cursor % plans.length + 1)) := by
        simp [List.length_take, List.length_drop]
        omega
      have := ih (cursor + 1)
        (plans.take (cursor % plans.length) ++
          (List.range (min ((TARGET_LAYERS : Int) - (L0 : Int) + 1) 3).toNat).map
            (splitPiece (plans.getD (cursor % plans.length) default)
              (min ((TARGET_LAYERS : Int) - (L0 : Int) + 1) 3).toNat) ++
          plans.drop (cursor % plans.length + 1)) (by omega)
      omega
    · rw [padLoop, if_neg hc]
      omega

theorem pipeline_padded_length (lum : String → ℚ) (meta : List (String × List Entry))
    (hNE : buildLayerPlans lum meta ≠ []) :
    TARGET_LAYERS ≤
      (padLoop (buildLayerPlans lum meta).length 60 0
        (expandLargePlans (buildLayerPlans lum meta))).length := by
  have h1 : 1 ≤ (buildLayerPlans lum meta).length := List.length_pos.mpr hNE
  have h2 := expandLargePlans_length_ge (buildLayerPlans lum meta)
  by_cases hL0 : (buildLayerPlans lum meta).length ≤ 5
  · have := padLoop_length (buildLayerPlans lum meta).length hL0 60 0
      (expandLargePlans (buildLayerPlans lum meta)) (by omega)
    unfold TARGET_LAYERS at *
    omega
  · rw [padLoop_of_ge _ _ _ _ (by unfold TARGET_LAYERS; omega)]
    unfold TARGET_LAYERS
    omega

/-! ## Characterizing the `byColor` map -/

theorem groupGet_cons (g : String × List IPlan) (gs : List (String × List IPlan)) (c : String) :
    groupGet (g :: gs) c = if g.1 = c then g.2 else groupGet gs c := by
  unfold groupGet
  by_cases h : g.1 = c
  · rw [List.find?_cons_of_pos _ (by simp [h]), if_pos h]
  · rw [List.find?_cons_of_neg _ (by simp [h]), if_neg h]

theorem groupGet_map_update_ne (gs : List (String × List IPlan)) (ip : IPlan) (c : String)
    (hne : ¬ (ip.2.color = c)) :
    groupGet (gs.map (fun g => if g.1 = ip.2.color then (g.1, g.2 ++ [ip]) else g)) c =
      groupGet gs c := by
  induction gs with
  | nil => rfl
  | cons g gs ih =>
    simp only [List.map_cons]
    by_cases h1 : g.1 = ip.2.color
    · rw [if_pos h1, groupGet_cons, groupGet_cons]
      rw [if_neg (by simp only []; intro hh; exact hne (h1 ▸ hh)),
        if_neg (fun hh => hne (h1 ▸ hh))]
      exact ih
    · rw [if_neg h1, groupGet_cons, groupGet_cons]
      by_cases h2 : g.1 = c
      · rw [if_pos h2, if_pos h2]
      · rw [if_neg h2, if_neg h2]
        exact ih

theorem groupGet_map_update (acc : List (String × List IPlan)) (ip : IPlan) (c : String)
    (hin : acc.any (fun g => g.1 = ip.2.color) = true) :
    groupGet (acc.map (fun g => if g.1 = ip.2.color then (g.1, g.2 ++ [ip]) else g)) c =
      groupGet acc c ++ if ip.2.color = c then [ip] else [] := by
  by_cases hm : ip.2.color = c
  · subst hm
    rw [if_pos rfl]
    induction acc with
    | nil => cases hin
    | cons g gs ih =>
      simp only [List.map_cons]
      by_cases h1 : g.1 = ip.2.color
      · rw [if_pos h1, groupGet_cons, groupGet_cons, if_pos h1, if_pos h1]
      · rw [if_neg h1, groupGet_cons, groupGet_cons, if_neg h1, if_neg h1]
        have hin' : gs.any (fun g => g.1 = ip.2.color) = true := by
          rcases List.any_eq_true.mp hin with ⟨g2, hg2, hp⟩
          rcases List.mem_cons.mp hg2 with rfl | hg2
          · exact absurd (by simpa using hp) h1
          · exact List.any_eq_true.mpr ⟨g2, hg2, hp⟩
        exact ih hin'
  · rw [if_neg hm, List.append_nil]
    exact groupGet_map_update_ne acc ip c hm

theorem groupGet_append_new (acc : List (String × List IPlan)) (ip : IPlan) (c : String)
    (hnotin : ¬ (acc.any (fun g => g.1 = ip.2.color) = true)) :
    groupGet (acc ++ [(ip.2.color, [ip])]) c =
      groupGet acc c ++ if ip.2.color = c then [ip] else [] := by
  induction acc with
  | nil =>
    simp only [List.nil_append]
    rw [groupGet_cons]
    by_cases h : ip.2.color = c
    · simp [h, groupGet]
    · simp [h, groupGet]
  | cons g gs ih =>
    have h1 : ¬ (g.1 = ip.2.color) := by
      intro hh
      exact hnotin (List.any_eq_true.mpr ⟨g, List.mem_cons_self g gs, by simpa using hh⟩)
    have hnotin' : ¬ (gs.any (fun g => g.1 = ip.2.color) = true) := by
      intro hh
      rcases List.any_eq_true.mp hh with ⟨g2, hg2, hp⟩
      exact hnotin (List.any_eq_true.mpr ⟨g2, List.mem_cons_of_mem g hg2, hp⟩)
    simp only [List.cons_append]
    rw [groupGet_cons, groupGet_cons]
    by_cases h2 : g.1 = c
    · rw [if_pos h2, if_pos h2]
      have : ¬ (ip.2.color = c) := by
        intro hh
        exact h1 (h2.trans hh.symm)
      simp [this]
    · rw [if_neg h2, if_neg h2]
      exact ih hnotin'

theorem addToColor_groupGet (acc : List (String × List IPlan)) (ip : IPlan) (c : String) :
    groupGet (addToColor acc ip) c =
      groupGet acc c ++ if ip.2.color = c then [ip] else [] := by
  unfold addToColor
  by_cases h : acc.any (fun g => g.1 = ip.2.color) = true
  · rw [if_pos h]
    exact groupGet_map_update acc ip c h
  · rw [if_neg h]
    exact groupGet_append_new acc ip c h

theorem groupGet_buildByColor (ips : List IPlan) (c : String) :
    groupGet (buildByColor ips) c = ips.filter (fun ip => ip.2.color = c) := by
  suffices h : ∀ acc, groupGet (ips.foldl addToColor acc) c =
      groupGet acc c ++ ips.filter (fun ip => ip.2.color = c) by
    have := h []
    simpa [buildByColor, groupGet] using this
  induction ips with
  | nil => simp
  | cons ip rest ih =>
    intro acc
    simp only [List.foldl_cons, List.filter_cons]
    rw [ih (addToColor acc ip), addToColor_groupGet]
    by_cases hm : ip.2.color = c
    · simp [hm]
    · simp [hm]

theorem addToColor_keys (acc : List (String × List IPlan)) (ip : IPlan) :
    (addToColor acc ip).map (fun g => g.1) =
      if acc.any (fun g => g.1 = ip.2.color) = true then acc.map (fun g => g.1)
      else acc.map (fun g => g.1) ++ [ip.2.color] := by
  unfold addToColor
  by_cases h : acc.any (fun g => g.1 = ip.2.color) = true
  · rw [if_pos h, if_pos h]
    simp only [List.map_map]
    apply List.map_congr_left
    intro g _
    by_cases h1 : g.1 = ip.2.color
    · simp [h1]
    · simp [h1]
  · rw [if_neg h, if_neg h]
    simp

theorem buildByColor_keys_nodup (ips : List IPlan) :
    ((buildByColor ips).map (fun g => g.1)).Nodup := by
  suffices h : ∀ acc, (acc.map (fun g : String × List IPlan => g.1)).Nodup →
      ((ips.foldl addToColor acc).map (fun g => g.1)).Nodup by
    exact h [] (by simp)
  induction ips with
  | nil => intro acc h; exact h
  | cons ip rest ih =>
    intro acc h
    simp only [List.foldl_cons]
    apply ih
    rw [addToColor_keys]
    by_cases h1 : acc.any (fun g => g.1 = ip.2.color) = true
    · rw [if_pos h1]; exact h
    · rw [if_neg h1]
      have hnm : ip.2.color ∉ acc.map (fun g => g.1) := by
        intro hm
        rcases List.mem_map.mp hm with ⟨g, hg, hgc⟩
        exact h1 (List.any_eq_true.mpr ⟨g, hg, by simpa using hgc⟩)
      simp [List.nodup_append, h, hnm]

theorem buildByColor_keys_mem (ips : List IPlan) (c : String) :
    c ∈ (buildByColor ips).map (fun g => g.1) ↔ ∃ ip ∈ ips, ip.2.color = c := by
  suffices h : ∀ acc, (c ∈ ((ips.foldl addToColor acc).map (fun g => g.1)) ↔
      c ∈ acc.map (fun g : String × List IPlan => g.1) ∨ ∃ ip ∈ ips, ip.2.color = c) by
    have := h []
    simpa [buildByColor] using this
  induction ips with
  | nil => intro acc; simp
  | cons ip rest ih =>
    intro acc
    simp only [List.foldl_cons]
    rw [ih (addToColor acc ip), addToColor_keys]
    by_cases h1 : acc.any (fun g => g.1 = ip.2.color) = true
    · rw [if_pos h1]
      constructor
      · rintro (hm | ⟨q, hq, hqc⟩)
        · exact Or.inl hm
        · exact Or.inr ⟨q, List.mem_cons_of_mem ip hq, hqc⟩
      · rintro (hm | ⟨q, hq, hqc⟩)
        · exact Or.inl hm
        · rcases List.mem_cons.mp hq with rfl | hq
          · rcases List.any_eq_true.mp h1 with ⟨g, hg, hp⟩
            exact Or.inl (hqc ▸ List.mem_map.mpr ⟨g, hg, by simpa using hp⟩)
          · exact Or.inr ⟨q, hq, hqc⟩
    · rw [if_neg h1]
      constructor
      · rintro (hm | ⟨q, hq, hqc⟩)
        · rcases List.mem_append.mp hm with hm | hm
          · exact Or.inl hm
          · exact Or.inr ⟨ip, List.mem_cons_self ip rest, by
              have := List.mem_singleton.mp hm
              exact this.symm⟩
        · exact Or.inr ⟨q, List.mem_cons_of_mem ip hq, hqc⟩
      · rintro (hm | ⟨q, hq, hqc⟩)
        · exact Or.inl (List.mem_append.mpr (Or.inl hm))
        · rcases List.mem_cons.mp hq with rfl | hq
          · exact Or.inl (List.mem_append.mpr (Or.inr (by simp [hqc])))
          · exact Or.inr ⟨q, hq, hqc⟩

theorem groupGet_map_sortGroups (m : List (String × List IPlan)) (c : String) :
    groupGet (m.map (fun g => (g.1, insertionSort ipSortLT g.2))) c =
      insertionSort ipSortLT (groupGet m c) := by
  induction m with
  | nil => simp [groupGet, insertionSort]
  | cons g gs ih =>
    simp only [List.map_cons]
    rw [groupGet_cons, groupGet_cons]
    by_cases h : g.1 = c
    · rw [if_pos h, if_pos h]
    · rw [if_neg h, if_neg h]
      exact ih

/-! ## State invariants of the selection phases -/

theorem firstPass_lensync (byColor : List (String × List IPlan)) (target : Nat) :
    ∀ cs st, st.included.length = st.finalPlans.length →
      (firstPass byColor target cs st).included.length =
        (firstPass byColor target cs st).finalPlans.length := by
  intro cs
  induction cs with
  | nil => intro st h; exact h
  | cons c cs ih =>
    intro st h
    rw [firstPass]
    by_cases h1 : target ≤ st.finalPlans.length
    · rw [if_pos h1]; exact h
    · rw [if_neg h1]
      cases hg : groupGet byColor c with
      | nil => exact ih st h
      | cons ip rest =>
        apply ih
        simp [h]

theorem firstPass_extends (byColor : List (String × List IPlan)) (target : Nat) :
    ∀ cs st, ∃ r, (firstPass byColor target cs st).finalPlans = st.finalPlans ++ r := by
  intro cs
  induction cs with
  | nil => intro st; exact ⟨[], by simp [firstPass]⟩
  | cons c cs ih =>
    intro st
    rw [firstPass]
    by_cases h1 : target ≤ st.finalPlans.length
    · rw [if_pos h1]; exact ⟨[], by simp⟩
    · rw [if_neg h1]
      cases hg : groupGet byColor c with
      | nil => exact ih st
      | cons ip rest =>
        rcases ih { finalPlans := st.finalPlans ++ [ip]
                    included := ip.1 :: st.included
                    pointers := assocSet st.pointers c 1 } with ⟨r, hr⟩
        exact ⟨[ip] ++ r, by rw [hr]; simp⟩

theorem firstPass_subset (byColor : List (String × List IPlan)) (target : Nat)
    (U : IPlan → Prop) (hG : ∀ c, ∀ ip ∈ groupGet byColor c, U ip) :
    ∀ cs st, (∀ ip ∈ st.finalPlans, U ip) →
      ∀ ip ∈ (firstPass byColor target cs st).finalPlans, U ip := by
  intro cs
  induction cs with
  | nil => intro st h; exact h
  | cons c cs ih =>
    intro st h
    rw [firstPass]
    by_cases h1 : target ≤ st.finalPlans.length
    · rw [if_pos h1]; exact h
    · rw [if_neg h1]
      cases hg : groupGet byColor c with
      | nil => exact ih st h
      | cons ip rest =>
        apply ih
        intro q hq
        rcases List.mem_append.mp hq with hq | hq
        · exact h q hq
        · have : q = ip := by simpa using hq
          subst this
          exact hG c q (hg ▸ List.mem_cons_self q rest)

theorem rrPass_lensync (byColor : List (String × List IPlan)) (target : Nat) :
    ∀ cs st prog, st.included.length = st.finalPlans.length →
      (rrPass byColor target cs st prog).1.included.length =
        (rrPass byColor target cs st prog).1.finalPlans.length := by
  intro cs
  induction cs with
  | nil => intro st prog h; exact h
  | cons c cs ih =>
    intro st prog h
    rw [rrPass]
    by_cases h1 : target ≤ st.finalPlans.length
    · rw [if_pos h1]; exact h
    · rw [if_neg h1]
      by_cases h2 : assocGet st.pointers c < (groupGet byColor c).length
      · rw [dif_pos h2]
        by_cases h3 : st.included.contains
            ((groupGet byColor c).get ⟨assocGet st.pointers c, h2⟩).1
        · rw [if_pos h3]
          exact ih _ prog h
        · rw [if_neg h3]
          apply ih
          simp [h]
      · rw [dif_neg h2]
        exact ih st prog h

theorem rrPass_extends (byColor : List (String × List IPlan)) (target : Nat) :
    ∀ cs st prog, ∃ r, (rrPass byColor target cs st prog).1.finalPlans =
      st.finalPlans ++ r := by
  intro cs
  induction cs with
  | nil => intro st prog; exact ⟨[], by simp [rrPass]⟩
  | cons c cs ih =>
    intro st prog
    rw [rrPass]
    by_cases h1 : target ≤ st.finalPlans.length
    · rw [if_pos h1]; exact ⟨[], by simp⟩
    · rw [if_neg h1]
      by_cases h2 : assocGet st.pointers c < (groupGet byColor c).length
      · rw [dif_pos h2]
        by_cases h3 : st.included.contains
            ((groupGet byColor c).get ⟨assocGet st.pointers c, h2⟩).1
        · rw [if_pos h3]
          exact ih _ prog
        · rw [if_neg h3]
          rcases ih { finalPlans := st.finalPlans ++
                        [(groupGet byColor c).get ⟨assocGet st.pointers c, h2⟩]
                      included := ((groupGet byColor c).get ⟨assocGet st.pointers c, h2⟩).1
                        :: st.included
                      pointers := assocSet st.pointers c (assocGet st.pointers c + 1) }
              true with ⟨r, hr⟩
          exact ⟨[(groupGet byColor c).get ⟨assocGet st.pointers c, h2⟩] ++ r,
            by rw [hr]; simp⟩
      · rw [dif_neg h2]
        exact ih st prog

theorem rrPass_subset (byColor : List (String × List IPlan)) (target : Nat)
    (U : IPlan → Prop) (hG : ∀ c, ∀ ip ∈ groupGet byColor c, U ip) :
    ∀ cs st prog, (∀ ip ∈ st.finalPlans, U ip) →
      ∀ ip ∈ (rrPass byColor target cs st prog).1.finalPlans, U ip := by
  intro cs
  induction cs with
  | nil => intro st prog h; exact h
  | cons c cs ih =>
    intro st prog h
    rw [rrPass]
    by_cases h1 : target ≤ st.finalPlans.length
    · rw [if_pos h1]; exact h
    · rw [if_neg h1]
      by_cases h2 : assocGet st.pointers c < (groupGet byColor c).length
      · rw [dif_pos h2]
        by_cases h3 : st.included.contains
            ((groupGet byColor c).get ⟨assocGet st.pointers c, h2⟩).1
        · rw [if_pos h3]
          exact ih _ prog h
        · rw [if_neg h3]
          apply ih
          intro q hq
          rcases List.mem_append.mp hq with hq | hq
          · exact h q hq
          · have hq' : q = (groupGet byColor c).get ⟨assocGet st.pointers c, h2⟩ := by
              simpa using hq
            rw [hq']
            exact hG c _ (List.get_mem _ _ _)
      · rw [dif_neg h2]
        exact ih st prog h

theorem rrLoop_lensync (byColor : List (String × List IPlan)) (colors : List String)
    (target : Nat) :
    ∀ fuel st, st.included.length = st.finalPlans.length →
      (rrLoop byColor colors target fuel st).included.length =
        (rrLoop byColor colors target fuel st).finalPlans.length := by
  intro fuel
  induction fuel with
  | zero => intro st h; exact h
  | succ fuel ih =>
    intro st h
    rw [rrLoop]
    by_cases h1 : target ≤ st.finalPlans.length
    · rw [if_pos h1]; exact h
    · rw [if_neg h1]
      rcases hp : rrPass byColor target colors st false with ⟨st2, prog⟩
      have h2 : st2.included.length = st2.finalPlans.length := by
        have := rrPass_lensync byColor target colors st false h
        rw [hp] at this
        exact this
      cases prog with
      | true => exact ih st2 h2
      | false => exact h2

theorem rrLoop_extends (byColor : List (String × List IPlan)) (colors : List String)
    (target : Nat) :
    ∀ fuel st, ∃ r, (rrLoop byColor colors target fuel st).finalPlans =
      st.finalPlans ++ r := by
  intro fuel
  induction fuel with
  | zero => intro st; exact ⟨[], by simp [rrLoop]⟩
  | succ fuel ih =>
    intro st
    rw [rrLoop]
    by_cases h1 : target ≤ st.finalPlans.length
    · rw [if_pos h1]; exact ⟨[], by simp⟩
    · rw [if_neg h1]
      rcases hp : rrPass byColor target colors st false with ⟨st2, prog⟩
      have h2 : ∃ r, st2.finalPlans = st.finalPlans ++ r := by
        have := rrPass_extends byColor target colors st false
        rw [hp] at this
        exact this
      cases prog with
      | true =>
        rcases ih st2 with ⟨r2, hr2⟩
        rcases h2 with ⟨r1, hr1⟩
        refine ⟨r1 ++ r2, ?_⟩
        show (rrLoop byColor colors target fuel st2).finalPlans = st.finalPlans ++ (r1 ++ r2)
        rw [hr2, hr1, List.append_assoc]
      | false => exact h2

theorem rrLoop_subset (byColor : List (String × List IPlan)) (colors : List String)
    (target : Nat) (U : IPlan → Prop) (hG : ∀ c, ∀ ip ∈ groupGet byColor c, U ip) :
    ∀ fuel st, (∀ ip ∈ st.finalPlans, U ip) →
      ∀ ip ∈ (rrLoop byColor colors target fuel st).finalPlans, U ip := by
  intro fuel
  induction fuel with
  | zero => intro st h; exact h
  | succ fuel ih =>
    intro st h
    rw [rrLoop]
    by_cases h1 : target ≤ st.finalPlans.length
    · rw [if_pos h1]; exact h
    · rw [if_neg h1]
      rcases hp : rrPass byColor target colors st false with ⟨st2, prog⟩
      have h2 : ∀ ip ∈ st2.finalPlans, U ip := by
        have := rrPass_subset byColor target U hG colors st false h
        rw [hp] at this
        exact this
      cases prog with
      | true => exact ih st2 h2
      | false => exact h2

theorem fallbackFill_lensync (target : Nat) :
    ∀ ips st, st.included.length = st.finalPlans.length →
      (fallbackFill target ips st).included.length =
        (fallbackFill target ips st).finalPlans.length := by
  intro ips
  induction ips with
  | nil => intro st h; exact h
  | cons ip rest ih =>
    intro st h
    rw [fallbackFill]
    by_cases h1 : target ≤ st.finalPlans.length
    · rw [if_pos h1]; exact h
    · rw [if_neg h1]
      by_cases h2 : st.included.contains ip.1
      · rw [if_pos h2]; exact ih st h
      · rw [if_neg h2]
        apply ih
        simp [h]

theorem fallbackFill_extends (target : Nat) :
    ∀ ips st, ∃ r, (fallbackFill target ips st).finalPlans = st.finalPlans ++ r := by
  intro ips
  induction ips with
  | nil => intro st; exact ⟨[], by simp [fallbackFill]⟩
  | cons ip rest ih =>
    intro st
    rw [fallbackFill]
    by_cases h1 : target ≤ st.finalPlans.length
    · rw [if_pos h1]; exact ⟨[], by simp⟩
    · rw [if_neg h1]
      by_cases h2 : st.included.contains ip.1
      · rw [if_pos h2]; exact ih st
      · rw [if_neg h2]
        rcases ih { st with finalPlans := st.finalPlans ++ [ip],
                            included := ip.1 :: st.included } with ⟨r, hr⟩
        exact ⟨[ip] ++ r, by rw [hr]; simp⟩

theorem fallbackFill_subset (target : Nat) (U : IPlan → Prop) :
    ∀ ips, (∀ ip ∈ ips, U ip) → ∀ st, (∀ ip ∈ st.finalPlans, U ip) →
      ∀ ip ∈ (fallbackFill target ips st).finalPlans, U ip := by
  intro ips
  induction ips with
  | nil => intro _ st h; exact h
  | cons ip rest ih =>
    intro hips st h
    rw [fallbackFill]
    by_cases h1 : target ≤ st.finalPlans.length
    · rw [if_pos h1]; exact h
    · rw [if_neg h1]
      by_cases h2 : st.included.contains ip.1
      · rw [if_pos h2]
        exact ih (fun q hq => hips q (List.mem_cons_of_mem ip hq)) st h
      · rw [if_neg h2]
        apply ih (fun q hq => hips q (List.mem_cons_of_mem ip hq))
        intro q hq
        rcases List.mem_append.mp hq with hq | hq
        · exact h q hq
        · have : q = ip := by simpa using hq
          rw [this]
          exact hips ip (List.mem_cons_self ip rest)

theorem fallbackFill_included_mono (target : Nat) :
    ∀ ips st i, i ∈ st.included → i ∈ (fallbackFill target ips st).included := by
  intro ips
  induction ips with
  | nil => intro st i h; exact h
  | cons ip rest ih =>
    intro st i h
    rw [fallbackFill]
    by_cases h1 : target ≤ st.finalPlans.length
    · rw [if_pos h1]; exact h
    · rw [if_neg h1]
      by_cases h2 : st.included.contains ip.1
      · rw [if_pos h2]; exact ih st i h
      · rw [if_neg h2]
        exact ih _ i (List.mem_cons_of_mem _ h)

theorem fallbackFill_post (target : Nat) :
    ∀ ips st, target ≤ (fallbackFill target ips st).finalPlans.length ∨
      ∀ ip ∈ ips, ip.1 ∈ (fallbackFill target ips st).included := by
  intro ips
  induction ips with
  | nil => intro st; exact Or.inr (by simp)
  | cons ip rest ih =>
    intro st
    rw [fallbackFill]
    by_cases h1 : target ≤ st.finalPlans.length
    · rw [if_pos h1]; exact Or.inl h1
    · rw [if_neg h1]
      by_cases h2 : st.included.contains ip.1
      · rw [if_pos h2]
        rcases ih st with h3 | h3
        · exact Or.inl h3
        · refine Or.inr ?_
          intro q hq
          rcases List.mem_cons.mp hq with rfl | hq
          · exact fallbackFill_included_mono target rest st q.1 (by simpa using h2)
          · exact h3 q hq
      · rw [if_neg h2]
        rcases ih { st with finalPlans := st.finalPlans ++ [ip],
                            included := ip.1 :: st.included } with h3 | h3
        · exact Or.inl h3
        · refine Or.inr ?_
          intro q hq
          rcases List.mem_cons.mp hq with rfl | hq
          · exact fallbackFill_included_mono target rest _ q.1 (List.mem_cons_self _ _)
          · exact h3 q hq

/-! ## Main facts about `selectFinalPlans` -/

theorem selectFinalPlans_length (plans : List Plan) (target : Nat) (oc : List String)
    (h : target < plans.length) :
    (selectFinalPlans plans target oc).length = target := by
  unfold selectFinalPlans
  rw [if_neg (by omega)]
  by_cases h2 : target ≤ (firstPass (selByColor plans) target (selColors plans oc)
      { finalPlans := [], included := [], pointers := [] }).finalPlans.length
  · rw [if_pos h2]
    simp only [List.length_map, List.length_take]
    omega
  · rw [if_neg h2]
    set st3 := fallbackFill target plans.enum
      (rrLoop (selByColor plans) (selColors plans oc) target (plans.length + 1)
        (firstPass (selByColor plans) target (selColors plans oc)
          { finalPlans := [], included := [], pointers := [] })) with hst3
    have hsync : st3.included.length = st3.finalPlans.length := by
      rw [hst3]
      apply fallbackFill_lensync
      apply rrLoop_lensync
      apply firstPass_lensync
      rfl
    have hlen3 : target ≤ st3.finalPlans.length := by
      rcases fallbackFill_post target plans.enum
          (rrLoop (selByColor plans) (selColors plans oc) target (plans.length + 1)
            (firstPass (selByColor plans) target (selColors plans oc)
              { finalPlans := [], included := [], pointers := [] })) with h3 | h3
      · exact h3
      · have hsub : ∀ i ∈ List.range plans.length, i ∈ st3.included := by
          intro i hi
          have hi' : i < plans.length := List.mem_range.mp hi
          have hx : plans.get? i = some (plans.get ⟨i, hi'⟩) := List.get?_eq_get hi'
          have hmem : (i, plans.get ⟨i, hi'⟩) ∈ plans.enum :=
            List.mk_mem_enum_iff_get?.mpr hx
          exact h3 (i, plans.get ⟨i, hi'⟩) hmem
        have h4 : (List.range plans.length).toFinset ⊆ st3.included.toFinset := by
          intro i hi
          rw [List.mem_toFinset] at *
          exact hsub i (by simpa using hi)
        have h5 := Finset.card_le_card h4
        rw [List.toFinset_card_of_nodup (List.nodup_range plans.length),
          List.length_range] at h5
        have h6 := List.toFinset_card_le st3.included
        omega
    simp only [List.length_map, List.length_take]
    omega

theorem selByColor_groups_sub (plans : List Plan) :
    ∀ c, ∀ ip ∈ groupGet (selByColor plans) c, ip ∈ plans.enum := by
  intro c ip hip
  rw [selByColor, groupGet_map_sortGroups, mem_insertionSort, groupGet_buildByColor] at hip
  exact List.mem_of_mem_filter hip

theorem selectFinalPlans_subset (plans : List Plan) (target : Nat) (oc : List String) :
    ∀ p ∈ selectFinalPlans plans target oc, p ∈ plans := by
  unfold selectFinalPlans
  by_cases h : plans.length ≤ target
  · rw [if_pos h]
    exact fun p hp => hp
  · rw [if_neg h]
    have henum : ∀ ip : IPlan, ip ∈ plans.enum → ip.2 ∈ plans := by
      intro ip hip
      exact List.get?_mem (List.mem_enum_iff_get?.mp hip)
    by_cases h2 : target ≤ (firstPass (selByColor plans) target (selColors plans oc)
        { finalPlans := [], included := [], pointers := [] }).finalPlans.length
    · rw [if_pos h2]
      intro p hp
      rcases List.mem_map.mp hp with ⟨ip, hip, rfl⟩
      have hip2 := List.mem_of_mem_take hip
      exact henum ip (firstPass_subset (selByColor plans) target _
        (selByColor_groups_sub plans) (selColors plans oc) _ (by simp) ip hip2)
    · rw [if_neg h2]
      intro p hp
      rcases List.mem_map.mp hp with ⟨ip, hip, rfl⟩
      have hip2 := List.mem_of_mem_take hip
      refine henum ip ?_
      refine fallbackFill_subset target _ plans.enum (fun q hq => hq) _ ?_ ip hip2
      apply rrLoop_subset (selByColor plans) (selColors plans oc) target _
        (selByColor_groups_sub plans)
      apply firstPass_subset (selByColor plans) target _
        (selByColor_groups_sub plans)
      simp

/-! ## Color coverage of the selection -/

theorem groupGet_selByColor (plans : List Plan) (c : String) :
    groupGet (selByColor plans) c =
      insertionSort ipSortLT (plans.enum.filter (fun ip => ip.2.color = c)) := by
  rw [selByColor, groupGet_map_sortGroups, groupGet_buildByColor]

theorem selByColor_group_color (plans : List Plan) (c : String) :
    ∀ ip ∈ groupGet (selByColor plans) c, ip.2.color = c := by
  intro ip hip
  rw [groupGet_selByColor, mem_insertionSort] at hip
  simpa using List.of_mem_filter hip

theorem groupGet_selByColor_ne_nil_iff (plans : List Plan) (c : String) :
    groupGet (selByColor plans) c ≠ [] ↔ c ∈ plans.map Plan.color := by
  rw [groupGet_selByColor]
  rw [Ne, ← List.length_eq_zero, length_insertionSort, List.length_eq_zero]
  constructor
  · intro h
    rcases List.exists_mem_of_ne_nil _ h with ⟨ip, hip⟩
    have h1 := List.of_mem_filter hip
    have h2 := List.mem_of_mem_filter hip
    refine List.mem_map.mpr ⟨ip.2, List.get?_mem (List.mem_enum_iff_get?.mp h2), by simpa using h1⟩
  · intro hc hnil
    rcases List.mem_map.mp hc with ⟨p, hp, hpc⟩
    rcases List.mem_iff_get.mp hp with ⟨i, hi⟩
    have hmem : (↑i, p) ∈ plans.enum := by
      refine List.mk_mem_enum_iff_get?.mpr ?_
      rw [← hi]
      exact List.get?_eq_get i.isLt
    have : (↑i, p) ∈ plans.enum.filter (fun ip => ip.2.color = c) :=
      List.mem_filter.mpr ⟨hmem, by simpa using hpc⟩
    rw [hnil] at this
    cases this

theorem selColors_covers (plans : List Plan) (oc : List String) (c : String)
    (hc : c ∈ plans.map Plan.color) : c ∈ selColors plans oc := by
  unfold selColors
  by_cases h : c ∈ oc
  · exact List.mem_append.mpr (Or.inl h)
  · refine List.mem_append.mpr (Or.inr (List.mem_filter.mpr ⟨?_, by simpa using h⟩))
    refine (buildByColor_keys_mem plans.enum c).mpr ?_
    rcases List.mem_map.mp hc with ⟨p, hp, hpc⟩
    rcases List.mem_iff_get.mp hp with ⟨i, hi⟩
    refine ⟨(↑i, p), ?_, by simpa using hpc⟩
    refine List.mk_mem_enum_iff_get?.mpr ?_
    rw [← hi]
    exact List.get?_eq_get i.isLt

theorem selColors_nodup (plans : List Plan) (oc : List String) (hoc : oc.Nodup) :
    (selColors plans oc).Nodup := by
  unfold selColors
  rw [List.nodup_append]
  refine ⟨hoc, (buildByColor_keys_nodup plans.enum).filter _, ?_⟩
  intro c hc hc2
  have h1 := List.of_mem_filter hc2
  have h2 : c ∉ oc := by simpa using h1
  exact h2 hc

theorem selColors_filter_length (plans : List Plan) (oc : List String) (hoc : oc.Nodup) :
    ((selColors plans oc).filter
        (fun c => !(groupGet (selByColor plans) c).isEmpty)).length =
      (plans.map Plan.color).dedup.length := by
  have hnd : ((selColors plans oc).filter
      (fun c => !(groupGet (selByColor plans) c).isEmpty)).Nodup :=
    (selColors_nodup plans oc hoc).filter _
  have hset : ((selColors plans oc).filter
      (fun c => !(groupGet (selByColor plans) c).isEmpty)).toFinset =
      (plans.map Plan.color).toFinset := by
    ext c
    simp only [List.mem_toFinset, List.mem_filter]
    constructor
    · rintro ⟨_, hne⟩
      refine (groupGet_selByColor_ne_nil_iff plans c).mp ?_
      simpa [List.isEmpty_iff] using hne
    · intro hc
      refine ⟨selColors_covers plans oc c hc, ?_⟩
      have := (groupGet_selByColor_ne_nil_iff plans c).mpr hc
      simpa [List.isEmpty_iff] using this
  have h1 := List.toFinset_card_of_nodup hnd
  have h2 := List.toFinset_card_of_nodup (List.nodup_dedup (plans.map Plan.color))
  have h3 : (plans.map Plan.color).dedup.toFinset = (plans.map Plan.color).toFinset := by
    ext c
    simp [List.mem_dedup]
  rw [hset] at h1
  rw [h3] at h2
  omega

/-- The first pass of `selectFinalPlans` gives every color with a
non-empty group a representative among the first `target` selected plans,
provided the number of non-empty colors still to process fits in the
remaining budget. -/
theorem firstPass_cover (byColor : List (String × List IPlan)) (target : Nat)
    (hColor : ∀ c, ∀ ip ∈ groupGet byColor c, ip.2.color = c) :
    ∀ cs st,
      st.finalPlans.length +
        (cs.filter (fun c => !(groupGet byColor c).isEmpty)).length ≤ target →
      ∀ c ∈ cs, groupGet byColor c ≠ [] →
        c ∈ ((firstPass byColor target cs st).finalPlans.take target).map
          (fun ip => ip.2.color) := by
  intro cs
  induction cs with
  | nil =>
    intro st _ c hc
    cases hc
  | cons c' cs ih =>
    intro st hcap c hc hcne
    have hfl1 : 1 ≤ ((c' :: cs).filter (fun c => !(groupGet byColor c).isEmpty)).length := by
      have hmem : c ∈ (c' :: cs).filter (fun c => !(groupGet byColor c).isEmpty) :=
        List.mem_filter.mpr ⟨hc, by simpa [List.isEmpty_iff] using hcne⟩
      exact List.length_pos.mpr (List.ne_nil_of_mem hmem)
    rw [firstPass, if_neg (by omega)]
    cases hg : groupGet byColor c' with
    | nil =>
      have hcc' : c ≠ c' := by
        intro h
        rw [h] at hcne
        exact hcne hg
      have hcs : c ∈ cs := by
        rcases List.mem_cons.mp hc with h | h
        · exact absurd h hcc'
        · exact h
      have hfilter : (c' :: cs).filter (fun c => !(groupGet byColor c).isEmpty) =
          cs.filter (fun c => !(groupGet byColor c).isEmpty) := by
        rw [List.filter_cons_of_neg]
        simp [hg]
      rw [hfilter] at hcap
      exact ih st hcap c hcs hcne
    | cons ip rest =>
      have hipc : ip.2.color = c' := hColor c' ip (hg ▸ List.mem_cons_self ip rest)
      have hfilter : (c' :: cs).filter (fun c => !(groupGet byColor c).isEmpty) =
          c' :: cs.filter (fun c => !(groupGet byColor c).isEmpty) := by
        rw [List.filter_cons_of_pos]
        simp [hg]
      rw [hfilter] at hcap
      simp only [List.length_cons] at hcap
      show c ∈ (((firstPass byColor target cs
          { finalPlans := st.finalPlans ++ [ip], included := ip.1 :: st.included,
            pointers := assocSet st.pointers c' 1 }).finalPlans).take target).map
          (fun q => q.2.color)
      by_cases hceq : c = c'
      · rcases firstPass_extends byColor target cs
            { finalPlans := st.finalPlans ++ [ip], included := ip.1 :: st.included,
              pointers := assocSet st.pointers c' 1 } with ⟨r, hr⟩
        rw [hr]
        have hlen1 : (st.finalPlans ++ [ip]).length ≤ target := by
          simp only [List.length_append, List.length_singleton]
          omega
        rw [List.take_append_eq_append_take, List.take_of_length_le hlen1]
        refine List.mem_map.mpr ⟨ip, ?_, by rw [hipc, hceq]⟩
        exact List.mem_append.mpr (Or.inl (List.mem_append.mpr
          (Or.inr (List.mem_singleton.mpr rfl))))
      · have hcs : c ∈ cs := by
          rcases List.mem_cons.mp hc with h | h
          · exact absurd h hceq
          · exact h
        apply ih
        · simp only [List.length_append, List.length_singleton]
          omega
        · exact hcs
        · exact hcne

theorem selectFinalPlans_cover (plans : List Plan) (target : Nat) (oc : List String)
    (hLen : target < plans.length) (hoc : oc.Nodup)
    (hK : (plans.map Plan.color).dedup.length ≤ target) :
    ∀ c ∈ plans.map Plan.color, ∃ p ∈ selectFinalPlans plans target oc, p.color = c := by
  intro c hc
  have hcap : (0 : Nat) + ((selColors plans oc).filter
      (fun c => !(groupGet (selByColor plans) c).isEmpty)).length ≤ target := by
    rw [selColors_filter_length plans oc hoc]
    omega
  have hcover := firstPass_cover (selByColor plans) target (selByColor_group_color plans)
    (selColors plans oc) { finalPlans := [], included := [], pointers := [] }
    (by simpa using hcap) c (selColors_covers plans oc c hc)
    ((groupGet_selByColor_ne_nil_iff plans c).mpr hc)
  unfold selectFinalPlans
  rw [if_neg (by omega)]
  by_cases h2 : target ≤ (firstPass (selByColor plans) target (selColors plans oc)
      { finalPlans := [], included := [], pointers := [] }).finalPlans.length
  · rw [if_pos h2]
    rcases List.mem_map.mp hcover with ⟨ip, hip, hipc⟩
    exact ⟨ip.2, List.mem_map.mpr ⟨ip, hip, rfl⟩, hipc⟩
  · rw [if_neg h2]
    rcases rrLoop_extends (selByColor plans) (selColors plans oc) target (plans.length + 1)
        (firstPass (selByColor plans) target (selColors plans oc)
          { finalPlans := [], included := [], pointers := [] }) with ⟨r1, hr1⟩
    rcases fallbackFill_extends target plans.enum
        (rrLoop (selByColor plans) (selColors plans oc) target (plans.length + 1)
          (firstPass (selByColor plans) target (selColors plans oc)
            { finalPlans := [], included := [], pointers := [] })) with ⟨r2, hr2⟩
    rcases List.mem_map.mp hcover with ⟨ip, hip, hipc⟩
    refine ⟨ip.2, List.mem_map.mpr ⟨ip, ?_, rfl⟩, hipc⟩
    rw [hr2, hr1, List.append_assoc, List.take_append_eq_append_take]
    exact List.mem_append.mpr (Or.inl hip)

/-! ## Plan-shape invariants through the pipeline -/

theorem orderColorsForReveal_subset (cols : List String) :
    ∀ c ∈ orderColorsForReveal cols, c ∈ cols := by
  intro c hc
  unfold orderColorsForReveal at hc
  rcases List.mem_append.mp hc with h | h
  · exact List.mem_of_mem_filter (List.mem_of_mem_filter h)
  · exact List.mem_of_mem_filter (List.mem_of_mem_filter h)

theorem planOfGroup_color (lum : String → ℚ) (hex : String) (group : List Entry) :
    (planOfGroup lum hex group).color = hex := rfl

theorem planOfGroup_brightness (lum : String → ℚ) (hex : String) (group : List Entry) :
    (planOfGroup lum hex group).brightness = brightnessScore lum hex := rfl

theorem mem_plansForColor (lum : String → ℚ) (meta : List (String × List Entry))
    (hex : String) (p : Plan) (hp : p ∈ plansForColor lum meta hex) :
    p.color = hex ∧ p.brightness = brightnessScore lum hex := by
  unfold plansForColor at hp
  cases hfind : meta.find? (fun g => g.1 = hex) with
  | none =>
    rw [hfind] at hp
    cases hp
  | some g =>
    rw [hfind] at hp
    replace hp : p ∈ (match insertionSort entryLT g.2 with
      | [] => ([] : List Plan)
      | e :: rest => (groupConsecutive (e :: rest)).map (planOfGroup lum hex)) := hp
    cases hsort : insertionSort entryLT g.2 with
    | nil =>
      rw [hsort] at hp
      cases hp
    | cons e rest =>
      rw [hsort] at hp
      rcases List.mem_map.mp hp with ⟨grp, _, rfl⟩
      exact ⟨rfl, rfl⟩

theorem buildLayerPlans_fields (lum : String → ℚ) (meta : List (String × List Entry)) :
    ∀ p ∈ buildLayerPlans lum meta,
      p.brightness = brightnessScore lum p.color ∧ p.color ∈ meta.map (fun g => g.1) := by
  intro p hp
  unfold buildLayerPlans at hp
  rcases List.mem_flatMap.mp hp with ⟨hex, hhex, hp2⟩
  rcases mem_plansForColor lum meta hex p hp2 with ⟨hc, hb⟩
  subst hc
  exact ⟨hb, orderColorsForReveal_subset _ _ hhex⟩

theorem expandOne_cases (q p : Plan) (hp : p ∈ expandOne q) :
    p = q ∨ ∃ n i, p = splitPiece q n i := by
  unfold expandOne at hp
  split at hp
  · exact Or.inl (by simpa using hp)
  · replace hp : p ∈ (match splitIntoPieces q
        (min 3 ((q.entries.length + (SPLIT_ENTRY_THRESHOLD - 1)) / SPLIT_ENTRY_THRESHOLD)) with
      | some pieces => if pieces.length > 1 then pieces else [q]
      | none => [q]) := hp
    rcases hsp : splitIntoPieces q
        (min 3 ((q.entries.length + (SPLIT_ENTRY_THRESHOLD - 1)) / SPLIT_ENTRY_THRESHOLD))
      with _ | pieces
    · rw [hsp] at hp
      exact Or.inl (by simpa using hp)
    · rw [hsp] at hp
      replace hp : p ∈ (if pieces.length > 1 then pieces else [q]) := hp
      by_cases h1 : pieces.length > 1
      · rw [if_pos h1] at hp
        rcases mem_splitIntoPieces q _ pieces hsp p hp with ⟨i, _, rfl⟩
        exact Or.inr ⟨_, i, rfl⟩
      · rw [if_neg h1] at hp
        exact Or.inl (by simpa using hp)

theorem expandLargePlans_pred (Q : Plan → Prop)
    (hsplit : ∀ plan n i, Q plan → Q (splitPiece plan n i)) :
    ∀ plans, (∀ p ∈ plans, Q p) → ∀ p ∈ expandLargePlans plans, Q p := by
  intro plans h p hp
  unfold expandLargePlans at hp
  rcases List.mem_flatMap.mp hp with ⟨q, hq, hp2⟩
  rcases expandOne_cases q p hp2 with rfl | ⟨n, i, rfl⟩
  · exact h p hq
  · exact hsplit q n i (h q hq)

theorem padLoop_pred (Q : Plan → Prop)
    (hsplit : ∀ plan n i, Q plan → Q (splitPiece plan n i)) (L0 : Nat) :
    ∀ fuel cursor plans, (∀ p ∈ plans, Q p) →
      ∀ p ∈ padLoop L0 fuel cursor plans, Q p := by
  intro fuel
  induction fuel with
  | zero => intro cursor plans h; exact h
  | succ fuel ih =>
    intro cursor plans h
    rw [padLoop]
    by_cases hc : 0 < plans.length ∧ plans.length < TARGET_LAYERS
    · rw [if_pos hc]
      by_cases hpc : (min ((TARGET_LAYERS : Int) - (L0 : Int) + 1) 3) ≤ 1
      · rw [if_pos hpc]
        exact ih (cursor + 1) plans h
      · rw [if_neg hpc]
        rcases hsp : splitIntoPieces (plans.getD (cursor % plans.length) default)
            (min ((TARGET_LAYERS : Int) - (L0 : Int) + 1) 3).toNat with _ | pieces
        · exact ih (cursor + 1) plans h
        · show ∀ p ∈ (if 1 < pieces.length then
              padLoop L0 fuel (cursor + 1)
                (plans.take (cursor % plans.length) ++ pieces ++
                  plans.drop (cursor % plans.length + 1))
            else padLoop L0 fuel (cursor + 1) plans), Q p
          by_cases h1 : 1 < pieces.length
          · rw [if_pos h1]
            apply ih
            intro q hq
            rcases List.mem_append.mp hq with hq | hq
            · rcases List.mem_append.mp hq with hq | hq
              · exact h q (List.mem_of_mem_take hq)
              · have hidx : cursor % plans.length < plans.length := Nat.mod_lt _ hc.1
                have hbase : Q (plans.getD (cursor % plans.length) default) := by
                  have hget : plans.getD (cursor % plans.length) default =
                      plans.get ⟨cursor % plans.length, hidx⟩ :=
                    List.getD_eq_get plans default hidx
                  rw [hget]
                  exact h _ (List.get_mem _ _ _)
                rcases mem_splitIntoPieces _ _ pieces hsp q hq with ⟨i, _, rfl⟩
                exact hsplit _ _ i hbase
            · exact h q (List.mem_of_mem_drop hq)
          · rw [if_neg h1]
            exact ih (cursor + 1) plans h
    · rw [if_neg hc]
      exact h

theorem finalLayerPlans_pred (Q : Plan → Prop)
    (hsplit : ∀ plan n i, Q plan → Q (splitPiece plan n i))
    (lum : String → ℚ) (meta : List (String × List Entry))
    (hbase : ∀ p ∈ buildLayerPlans lum meta, Q p) :
    ∀ p ∈ finalLayerPlans lum meta, Q p := by
  intro p hp
  unfold finalLayerPlans sortPlansForDepth at hp
  rw [mem_insertionSort] at hp
  have hpad : ∀ q ∈ paddedPlans lum meta, Q q := by
    intro q hq
    exact padLoop_pred Q hsplit _ 60 0 _
      (expandLargePlans_pred Q hsplit _ hbase) q hq
  unfold selectedPlans at hp
  split at hp
  · exact hpad p (selectFinalPlans_subset _ _ _ p hp)
  · exact hpad p hp

/-! ## Pipeline-level length -/

theorem finalLayerPlans_length (lum : String → ℚ) (meta : List (String × List Entry))
    (hNE : buildLayerPlans lum meta ≠ []) :
    (finalLayerPlans lum meta).length = TARGET_LAYERS := by
  unfold finalLayerPlans sortPlansForDepth
  rw [length_insertionSort]
  unfold selectedPlans
  have hpad : TARGET_LAYERS ≤ (paddedPlans lum meta).length := by
    unfold paddedPlans processedPlans
    exact pipeline_padded_length lum meta hNE
  by_cases h : TARGET_LAYERS < (paddedPlans lum meta).length
  · rw [if_pos h]
    exact selectFinalPlans_length _ _ _ h
  · rw [if_neg h]
    omega

/-! ## The claims -/

/-- C1: for every processed image yielding at least one layer plan, the
final number of layer plans — and therefore of manifest `files` and
`colors` — is exactly `TARGET_LAYERS` (6).  The code never produces
fewer: clip-window splitting always succeeds, so the "structurally
impossible" escape hatch is never needed. -/
theorem C1_final_count (lum : String → ℚ) (cc : String) (meta : List (String × List Entry))
    (hNE : buildLayerPlans lum meta ≠ []) :
    (finalLayerPlans lum meta).length = TARGET_LAYERS ∧
    (manifestEntryFor lum cc meta).files.length = TARGET_LAYERS ∧
    (manifestEntryFor lum cc meta).colors.length = TARGET_LAYERS := by
  have h := finalLayerPlans_length lum meta hNE
  refine ⟨h, ?_, ?_⟩
  · unfold manifestEntryFor
    simp [List.enum_length, h]
  · unfold manifestEntryFor
    simp [h]

theorem C1_final_count_witness :
    buildLayerPlans lumZero metaSolidBlue ≠ [] ∧
      ((finalLayerPlans lumZero metaSolidBlue).length = TARGET_LAYERS ∧
        (manifestEntryFor lumZero "aa" metaSolidBlue).files.length = TARGET_LAYERS ∧
        (manifestEntryFor lumZero "aa" metaSolidBlue).colors.length = TARGET_LAYERS) :=
  ⟨by decide, C1_final_count lumZero "aa" metaSolidBlue (by decide)⟩

/-- C3 counterexample: an image with no extractable colors is NOT
skipped — the code writes the full copy and records a manifest entry
with empty `colors` (lines 518–528). -/
theorem C3_counterexample :
    (processFlag lumZero "aa" true []).entry =
      some { colors := [], files := ["aa__full.svg"], z := [], full := "aa__full.svg" } ∧
    (processFlag lumZero "aa" true []).writtenFiles = ["aa__full.svg"] := by decide

/-- C3 (amended): for every non-skipped image with no extractable
colors, the full copy is written and a manifest entry is recorded with
an empty color list, the full copy as only file, and an empty z-stack. -/
theorem C3_amended (lum : String → ℚ) (cc : String) (hskip : cc ∉ SKIP_CODES) :
    processFlag lum cc true [] =
      { entry := some ⟨[], [cc ++ "__full.svg"], [], cc ++ "__full.svg"⟩,
        writtenFiles := [cc ++ "__full.svg"], clearedDir := true } := by
  unfold processFlag
  rw [if_neg (by simpa using hskip)]
  rfl

theorem C3_amended_witness :
    "aa" ∉ SKIP_CODES ∧
      processFlag lumZero "aa" true [] =
        { entry := some ⟨[], ["aa" ++ "__full.svg"], [], "aa" ++ "__full.svg"⟩,
          writtenFiles := ["aa" ++ "__full.svg"], clearedDir := true } :=
  ⟨by decide, C3_amended lumZero "aa" (by decide)⟩

/-- C4 counterexample: a single-region image (one color, one entry) does
NOT produce one layer plan — the padding loop splits it up to
`TARGET_LAYERS`, so the manifest gets 6 files and 6 colors. -/
theorem C4_counterexample :
    ((processFlag lumZero "aa" true metaSolidBlue).entry.getD default).files.length = 6 ∧
    ((processFlag lumZero "aa" true metaSolidBlue).entry.getD default).colors =
      List.replicate 6 "#0000ff" ∧
    (processFlag lumZero "aa" true metaSolidBlue).entry.isSome = true := by decide

/-- C4 (amended): an image yielding exactly one region (a single color
with a single entry) produces exactly `TARGET_LAYERS` (6) layer plans by
clip splitting; the manifest entry lists that color 6 times and 6
files. -/
theorem C4_amended (lum : String → ℚ) (cc c : String) (e : Entry) (hc : c ≠ "") :
    (finalLayerPlans lum [(c, [e])]).length = TARGET_LAYERS ∧
    (manifestEntryFor lum cc [(c, [e])]).colors = List.replicate TARGET_LAYERS c ∧
    (manifestEntryFor lum cc [(c, [e])]).files.length = TARGET_LAYERS := by
  have hrev : orderColorsForReveal [c] = [c] := by
    unfold orderColorsForReveal
    by_cases ht : isTailColor c
    · simp [hc, ht]
    · simp [hc, ht]
  have hpfc : plansForColor lum [(c, [e])] c = [planOfGroup lum c [e]] := by
    unfold plansForColor
    rw [List.find?_cons_of_pos _ (by simp)]
    rfl
  have hbuild : buildLayerPlans lum [(c, [e])] = [planOfGroup lum c [e]] := by
    unfold buildLayerPlans
    rw [show ([(c, [e])].map (fun g => g.1)) = [c] from rfl, hrev]
    simp [hpfc]
  have hNE : buildLayerPlans lum [(c, [e])] ≠ [] := by
    rw [hbuild]
    simp
  have hlen := finalLayerPlans_length lum [(c, [e])] hNE
  have hcolors : ∀ p ∈ finalLayerPlans lum [(c, [e])], p.color = c := by
    apply finalLayerPlans_pred (fun p => p.color = c) (fun plan n i hq => hq)
    rw [hbuild]
    intro p hp
    have : p = planOfGroup lum c [e] := by simpa using hp
    rw [this]
    rfl
  refine ⟨hlen, ?_, ?_⟩
  · rw [List.eq_replicate]
    constructor
    · unfold manifestEntryFor
      simp [hlen]
    · intro b hb
      unfold manifestEntryFor at hb
      simp only [List.mem_map] at hb
      rcases hb with ⟨p, hp, rfl⟩
      exact hcolors p hp
  · unfold manifestEntryFor
    simp [List.enum_length, hlen]

theorem C4_amended_witness :
    "#0000ff" ≠ "" ∧
      ((finalLayerPlans lumZero [("#0000ff", [entryBlue])]).length = TARGET_LAYERS ∧
        (manifestEntryFor lumZero "aa" [("#0000ff", [entryBlue])]).colors =
          List.replicate TARGET_LAYERS "#0000ff" ∧
        (manifestEntryFor lumZero "aa" [("#0000ff", [entryBlue])]).files.length =
          TARGET_LAYERS) :=
  ⟨by decide, C4_amended lumZero "aa" "#0000ff" entryBlue (by decide)⟩

/-- C10: flags whose country code is in `SKIP_CODES` (`cp`, `xx`, `um`)
produce no layers and no manifest entry, and any existing output
directory for that code is removed — regardless of the SVG's content. -/
theorem C10_skip_codes (lum : String → ℚ) (cc : String) (sp : Bool)
    (meta : List (String × List Entry)) (h : cc ∈ SKIP_CODES) :
    processFlag lum cc sp meta =
      { entry := none, writtenFiles := [], clearedDir := true } := by
  unfold processFlag
  rw [if_pos (by simpa using h)]

theorem C10_skip_codes_witness :
    "cp" ∈ SKIP_CODES ∧
      processFlag lumZero "cp" true metaSolidBlue =
        { entry := none, writtenFiles := [], clearedDir := true } :=
  ⟨by decide, C10_skip_codes lumZero "cp" true metaSolidBlue (by decide)⟩

/-- C5: in every produced layer sequence the brightness score is
non-increasing across consecutive layers (unconditionally, hence in
particular wherever no `forceTop` override applies), and no white
(`#ffffff`) layer ever precedes a non-white layer.  `lum` is the external
luminosity function, which returns values in `[0, 1]`. -/
theorem C5_ordering (lum : String → ℚ) (meta : List (String × List Entry))
    (hlum : ∀ s, 0 ≤ lum s) :
    (∀ i, (hi : i + 1 < (finalLayerPlans lum meta).length) →
      ((finalLayerPlans lum meta).get ⟨i + 1, hi⟩).brightness ≤
        ((finalLayerPlans lum meta).get ⟨i, Nat.lt_of_succ_lt hi⟩).brightness) ∧
    (∀ i j, (hij : i < j) → (hj : j < (finalLayerPlans lum meta).length) →
      ((finalLayerPlans lum meta).get ⟨i, Nat.lt_trans hij hj⟩).color = "#ffffff" →
      ((finalLayerPlans lum meta).get ⟨j, hj⟩).color = "#ffffff") := by
  have hWF : ∀ p ∈ finalLayerPlans lum meta,
      p.brightness = brightnessScore lum p.color := by
    apply finalLayerPlans_pred (fun p => p.brightness = brightnessScore lum p.color)
      (fun plan n i hq => hq)
    intro p hp
    exact (buildLayerPlans_fields lum meta p hp).1
  have hPW : (finalLayerPlans lum meta).Pairwise (fun a b => depthLT b a = false) := by
    unfold finalLayerPlans sortPlansForDepth
    exact pairwise_insertionSort depthLT_asym depthLT_cmp _
  have hget := List.pairwise_iff_get.mp hPW
  have hbr : ∀ i j, (hij : i < j) → (hj : j < (finalLayerPlans lum meta).length) →
      ((finalLayerPlans lum meta).get ⟨j, hj⟩).brightness ≤
        ((finalLayerPlans lum meta).get ⟨i, Nat.lt_trans hij hj⟩).brightness := by
    intro i j hij hj
    have h := hget ⟨i, Nat.lt_trans hij hj⟩ ⟨j, hj⟩ hij
    by_contra hlt
    push_neg at hlt
    have h2 : depthLT ((finalLayerPlans lum meta).get ⟨j, hj⟩)
        ((finalLayerPlans lum meta).get ⟨i, Nat.lt_trans hij hj⟩) = true := by
      rw [depthLT_iff]
      exact Or.inl hlt
    rw [h] at h2
    cases h2
  constructor
  · intro i hi
    exact hbr i (i + 1) (Nat.lt_succ_self i) hi
  · intro i j hij hj hwhite
    have hb := hbr i j hij hj
    have hWFi := hWF _ (List.get_mem (finalLayerPlans lum meta) i (Nat.lt_trans hij hj))
    have hWFj := hWF _ (List.get_mem (finalLayerPlans lum meta) j hj)
    rw [hwhite] at hWFi
    have hii : ((finalLayerPlans lum meta).get ⟨i, Nat.lt_trans hij hj⟩).brightness = -1 := by
      rw [hWFi]
      rfl
    by_contra hnw
    have hge : 0 ≤ ((finalLayerPlans lum meta).get ⟨j, hj⟩).brightness := by
      rw [hWFj]
      unfold brightnessScore
      by_cases h0 : ((finalLayerPlans lum meta).get ⟨j, hj⟩).color = ""
      · rw [if_pos h0]
      · rw [if_neg h0, if_neg hnw]
        exact hlum _
    rw [hii] at hb
    linarith

theorem C5_ordering_witness :
    (∀ s, (0 : ℚ) ≤ lumZero s) ∧
      ((finalLayerPlans lumZero metaTwoGroups).get ⟨1, by decide⟩).brightness ≤
        ((finalLayerPlans lumZero metaTwoGroups).get ⟨0, by decide⟩).brightness :=
  ⟨fun _ => le_refl 0,
   (C5_ordering lumZero metaTwoGroups (fun _ => le_refl 0)).1 0 (by decide)⟩

/-- C6 counterexample: a real pipeline run (one color, two groups) whose
final ordering has two consecutive equal-brightness layers where the
EARLIER layer is larger (3 entries) than the later one (1 entry) — ties
are not broken by ascending size. -/
theorem C6_counterexample :
    ((finalLayerPlans lumZero metaTwoGroups).get ⟨4, by decide⟩).brightness =
      ((finalLayerPlans lumZero metaTwoGroups).get ⟨5, by decide⟩).brightness ∧
    ((finalLayerPlans lumZero metaTwoGroups).get ⟨5, by decide⟩).entries.length <
      ((finalLayerPlans lumZero metaTwoGroups).get ⟨4, by decide⟩).entries.length := by
  decide

/-- C6 (amended): white is demoted below all other colors via its fixed
`-1` brightness and near-black merely sorts low by its natural
luminosity, with no explicit demotion; ties between layers of equal
brightness are broken by ascending depth key
(`zBase * 1000 + splitOffset + forceTop boost`), not by area. -/
theorem C6_amended (plans : List Plan) :
    ∀ i, (hi : i + 1 < (sortPlansForDepth plans).length) →
      ((sortPlansForDepth plans).get ⟨i, Nat.lt_of_succ_lt hi⟩).brightness =
        ((sortPlansForDepth plans).get ⟨i + 1, hi⟩).brightness →
      depthKey ((sortPlansForDepth plans).get ⟨i, Nat.lt_of_succ_lt hi⟩) ≤
        depthKey ((sortPlansForDepth plans).get ⟨i + 1, hi⟩) := by
  intro i hi heq
  have hPW : (sortPlansForDepth plans).Pairwise (fun a b => depthLT b a = false) := by
    unfold sortPlansForDepth
    exact pairwise_insertionSort depthLT_asym depthLT_cmp _
  have h := (List.pairwise_iff_get.mp hPW) ⟨i, Nat.lt_of_succ_lt hi⟩ ⟨i + 1, hi⟩
    (Nat.lt_succ_self i)
  by_contra hlt
  push_neg at hlt
  have h2 : depthLT ((sortPlansForDepth plans).get ⟨i + 1, hi⟩)
      ((sortPlansForDepth plans).get ⟨i, Nat.lt_of_succ_lt hi⟩) = true := by
    rw [depthLT_iff]
    exact Or.inr ⟨heq.symm, hlt⟩
  rw [h] at h2
  cases h2

theorem C6_amended_witness :
    depthKey ((sortPlansForDepth [planWide, planNarrow]).get ⟨0, by decide⟩) ≤
      depthKey ((sortPlansForDepth [planWide, planNarrow]).get ⟨1, by decide⟩) :=
  C6_amended [planWide, planNarrow] 0 (by decide) (by decide)

/-- C7: a plan whose entry count is at or below `SPLIT_ENTRY_THRESHOLD`
(10) passes through `expandLargePlans` unchanged; a plan that exceeds the
threshold is eagerly expanded into `min(3, ceil(entries/10))` ∈ {2, 3}
clip-window pieces, split along `x` when its split generation is even
(`'vertical'`) and along `y` when odd (`'horizontal'`), with the
generation bumped so the next split alternates.  In the pipeline
(`finalLayerPlans`) this expansion runs before the padding split and the
final selection. -/
theorem C7_expand_threshold (plan : Plan) :
    (plan.entries.length ≤ SPLIT_ENTRY_THRESHOLD → expandOne plan = [plan]) ∧
    (SPLIT_ENTRY_THRESHOLD < plan.entries.length →
      ∃ pieces, splitIntoPieces plan
          (min 3 ((plan.entries.length + (SPLIT_ENTRY_THRESHOLD - 1)) /
            SPLIT_ENTRY_THRESHOLD)) = some pieces ∧
        expandOne plan = pieces ∧ 2 ≤ pieces.length ∧ pieces.length ≤ 3 ∧
        (∀ q ∈ pieces, q.color = plan.color ∧ q.entries = plan.entries ∧
          q.splitGeneration = plan.splitGeneration + 1) ∧
        (plan.splitGeneration % 2 = 0 → ∀ q ∈ pieces, ∃ cl, q.clip = some cl ∧
          cl.y0 = (plan.clip.getD defaultClip).y0 ∧
          cl.y1 = (plan.clip.getD defaultClip).y1) ∧
        (plan.splitGeneration % 2 = 1 → ∀ q ∈ pieces, ∃ cl, q.clip = some cl ∧
          cl.x0 = (plan.clip.getD defaultClip).x0 ∧
          cl.x1 = (plan.clip.getD defaultClip).x1)) := by
  constructor
  · intro hle
    by_cases hlt : plan.entries.length < SPLIT_ENTRY_THRESHOLD
    · unfold expandOne
      rw [if_pos hlt]
    · have h10 : plan.entries.length = SPLIT_ENTRY_THRESHOLD := by omega
      have hm1 : min 3 ((plan.entries.length + (SPLIT_ENTRY_THRESHOLD - 1)) /
          SPLIT_ENTRY_THRESHOLD) = 1 := by
        rw [h10]
        rfl
      unfold expandOne
      rw [if_neg hlt]
      show (match splitIntoPieces plan (min 3 ((plan.entries.length +
          (SPLIT_ENTRY_THRESHOLD - 1)) / SPLIT_ENTRY_THRESHOLD)) with
        | some pieces => if pieces.length > 1 then pieces else [plan]
        | none => [plan]) = [plan]
      rw [hm1, splitIntoPieces_eq_none plan 1 (le_refl 1)]
  · intro hgt
    have hm2 : 2 ≤ min 3 ((plan.entries.length + (SPLIT_ENTRY_THRESHOLD - 1)) /
        SPLIT_ENTRY_THRESHOLD) := by
      unfold SPLIT_ENTRY_THRESHOLD at *
      omega
    have hm3 : min 3 ((plan.entries.length + (SPLIT_ENTRY_THRESHOLD - 1)) /
        SPLIT_ENTRY_THRESHOLD) ≤ 3 := by
      omega
    refine ⟨(List.range (min 3 ((plan.entries.length + (SPLIT_ENTRY_THRESHOLD - 1)) /
        SPLIT_ENTRY_THRESHOLD))).map
        (splitPiece plan (min 3 ((plan.entries.length + (SPLIT_ENTRY_THRESHOLD - 1)) /
          SPLIT_ENTRY_THRESHOLD))),
      splitIntoPieces_eq plan _ hm2, ?_, ?_, ?_, ?_, ?_, ?_⟩
    · unfold expandOne
      rw [if_neg (by omega)]
      show (match splitIntoPieces plan (min 3 ((plan.entries.length +
          (SPLIT_ENTRY_THRESHOLD - 1)) / SPLIT_ENTRY_THRESHOLD)) with
        | some pieces => if pieces.length > 1 then pieces else [plan]
        | none => [plan]) = _
      rw [splitIntoPieces_eq plan _ hm2]
      simp only [List.length_map, List.length_range]
      rw [if_pos (by omega)]
    · simp only [List.length_map, List.length_range]
      exact hm2
    · simp only [List.length_map, List.length_range]
      exact hm3
    · intro q hq
      rcases List.mem_map.mp hq with ⟨i, _, rfl⟩
      exact ⟨rfl, rfl, rfl⟩
    · intro heven q hq
      rcases List.mem_map.mp hq with ⟨i, _, rfl⟩
      refine ⟨pieceClip (plan.clip.getD defaultClip) plan.splitGeneration _ i, rfl, ?_, ?_⟩
      · unfold pieceClip
        rw [if_pos heven]
      · unfold pieceClip
        rw [if_pos heven]
    · intro hodd q hq
      rcases List.mem_map.mp hq with ⟨i, _, rfl⟩
      have hne : ¬ (plan.splitGeneration % 2 = 0) := by omega
      refine ⟨pieceClip (plan.clip.getD defaultClip) plan.splitGeneration _ i, rfl, ?_, ?_⟩
      · unfold pieceClip
        rw [if_neg hne]
      · unfold pieceClip
        rw [if_neg hne]

theorem C7_expand_threshold_witness :
    SPLIT_ENTRY_THRESHOLD < planBig.entries.length ∧
      ∃ pieces, splitIntoPieces planBig
          (min 3 ((planBig.entries.length + (SPLIT_ENTRY_THRESHOLD - 1)) /
            SPLIT_ENTRY_THRESHOLD)) = some pieces ∧
        expandOne planBig = pieces ∧ 2 ≤ pieces.length ∧ pieces.length ≤ 3 ∧
        (∀ q ∈ pieces, q.color = planBig.color ∧ q.entries = planBig.entries ∧
          q.splitGeneration = planBig.splitGeneration + 1) ∧
        (planBig.splitGeneration % 2 = 0 → ∀ q ∈ pieces, ∃ cl, q.clip = some cl ∧
          cl.y0 = (planBig.clip.getD defaultClip).y0 ∧
          cl.y1 = (planBig.clip.getD defaultClip).y1) ∧
        (planBig.splitGeneration % 2 = 1 → ∀ q ∈ pieces, ∃ cl, q.clip = some cl ∧
          cl.x0 = (planBig.clip.getD defaultClip).x0 ∧
          cl.x1 = (planBig.clip.getD defaultClip).x1) :=
  ⟨by decide, (C7_expand_threshold planBig).2 (by decide)⟩

/-- C8: when the candidate plans exceed the target, the final selection
returns exactly `target` plans, and whenever the number of distinct
colors fits in the target, every color present keeps at least one
representative plan. -/
theorem C8_selection (plans : List Plan) (target : Nat) (oc : List String)
    (hLen : target < plans.length) (hoc : oc.Nodup)
    (hK : (plans.map Plan.color).dedup.length ≤ target) :
    (selectFinalPlans plans target oc).length = target ∧
    ∀ c ∈ plans.map Plan.color, ∃ p ∈ selectFinalPlans plans target oc, p.color = c :=
  ⟨selectFinalPlans_length plans target oc hLen,
   selectFinalPlans_cover plans target oc hLen hoc hK⟩

theorem C8_selection_witness :
    (6 < wPlans.length ∧ wOC.Nodup ∧ (wPlans.map Plan.color).dedup.length ≤ 6) ∧
      (selectFinalPlans wPlans 6 wOC).length = 6 ∧
      ∃ p ∈ selectFinalPlans wPlans 6 wOC, p.color = "#0000ff" :=
  ⟨⟨by decide, by decide, by decide⟩,
   (C8_selection wPlans 6 wOC (by decide) (by decide) (by decide)).1,
   (C8_selection wPlans 6 wOC (by decide) (by decide) (by decide)).2 "#0000ff" (by decide)⟩

/-! ## One-dimensional subdivision facts for the clip windows -/

theorem subdiv_mono (x0 s : ℚ) (hs : 0 ≤ s) (n : Nat) (hn : 0 < n) (i j : Nat)
    (hij : i ≤ j) :
    x0 + s * ((i : ℚ) / (n : ℚ)) ≤ x0 + s * ((j : ℚ) / (n : ℚ)) := by
  have hnq : (0 : ℚ) < (n : ℚ) := by exact_mod_cast hn
  have h1 : (i : ℚ) / (n : ℚ) ≤ (j : ℚ) / (n : ℚ) := by
    have hij2 : (i : ℚ) ≤ (j : ℚ) := by exact_mod_cast hij
    gcongr
  nlinarith

theorem subdiv_last (x0 s : ℚ) (n : Nat) (hn : 0 < n) :
    x0 + s * ((n : ℚ) / (n : ℚ)) = x0 + s := by
  have hnq : (n : ℚ) ≠ 0 := by
    have : (0 : ℚ) < (n : ℚ) := by exact_mod_cast hn
    linarith
  rw [div_self hnq, mul_one]

theorem subdiv_mem (x0 s : ℚ) (hs : 0 ≤ s) (n : Nat) (hn : 0 < n) (v : ℚ)
    (h1 : x0 ≤ v) (h2 : v ≤ x0 + s) :
    ∃ i, i < n ∧ x0 + s * ((i : ℚ) / (n : ℚ)) ≤ v ∧
      v ≤ x0 + s * (((i : ℚ) + 1) / (n : ℚ)) := by
  have hnq : (0 : ℚ) < (n : ℚ) := by exact_mod_cast hn
  rcases eq_or_lt_of_le hs with hs0 | hs0
  · refine ⟨0, hn, ?_, ?_⟩
    · rw [← hs0]
      simp
      linarith
    · rw [← hs0]
      simp
      linarith
  · set t : ℚ := (v - x0) * (n : ℚ) / s with ht
    have ht0 : 0 ≤ t := by
      apply div_nonneg _ (le_of_lt hs0)
      apply mul_nonneg (by linarith) (le_of_lt hnq)
    have htn : t ≤ (n : ℚ) := by
      rw [ht, div_le_iff hs0]
      nlinarith
    have hfl0 : 0 ≤ ⌊t⌋ := Int.le_floor.mpr (by exact_mod_cast ht0)
    have hv : v = x0 + s * (t / (n : ℚ)) := by
      rw [ht]
      field_simp
      ring
    by_cases hk : ⌊t⌋.toNat ≤ n - 1
    · refine ⟨⌊t⌋.toNat, by omega, ?_, ?_⟩
      · have hkt : ((⌊t⌋.toNat : ℚ)) ≤ t := by
          have h7 : ((⌊t⌋.toNat : ℤ) : ℚ) ≤ t := by
            rw [Int.toNat_of_nonneg hfl0]
            exact Int.floor_le t
          exact_mod_cast h7
        rw [hv]
        gcongr
      · have hkt2 : t ≤ ((⌊t⌋.toNat : ℚ)) + 1 := by
          have h3 : t < ((⌊t⌋ : ℤ) : ℚ) + 1 := Int.lt_floor_add_one t
          have h4 : ((⌊t⌋.toNat : ℤ) : ℚ) = ((⌊t⌋ : ℤ) : ℚ) := by
            rw [Int.toNat_of_nonneg hfl0]
          have h8 : t < ((⌊t⌋.toNat : ℚ)) + 1 := by
            rw [show ((⌊t⌋.toNat : ℚ)) = ((⌊t⌋.toNat : ℤ) : ℚ) by push_cast; ring, h4]
            exact h3
          linarith
        rw [hv]
        gcongr
    · have hkn : (n : ℚ) ≤ ⌊t⌋ := by
        have h9 : n ≤ ⌊t⌋.toNat := by omega
        have h5 : ((n : ℤ) : ℚ) ≤ ((⌊t⌋.toNat : ℤ) : ℚ) := by exact_mod_cast h9
        rw [Int.toNat_of_nonneg hfl0] at h5
        exact_mod_cast h5
      have htn2 : t = (n : ℚ) := by
        have h10 := Int.floor_le t
        have h6 : (n : ℚ) ≤ t := le_trans hkn h10
        linarith
      have hvx : v = x0 + s := by
        rw [hv, htn2, div_self (ne_of_gt hnq), mul_one]
      refine ⟨n - 1, by omega, ?_, ?_⟩
      · rw [hvx]
        have hfrac : ((n - 1 : Nat) : ℚ) / (n : ℚ) ≤ 1 := by
          rw [div_le_one hnq]
          exact_mod_cast Nat.sub_le n 1
        nlinarith
      · rw [hvx]
        have hcast : ((n - 1 : Nat) : ℚ) + 1 = (n : ℚ) := by
          have h11 : (1 : Nat) ≤ n := hn
          push_cast [Nat.cast_sub h11]
          ring
        rw [hcast, div_self (ne_of_gt hnq), mul_one]

theorem splitPiece_clip_getD (plan : Plan) (n i : Nat) :
    (splitPiece plan n i).clip.getD defaultClip =
      pieceClip (plan.clip.getD defaultClip) plan.splitGeneration n i := rfl

theorem pieceClip_even (base : Clip) (gen n i : Nat) (h : gen % 2 = 0) :
    pieceClip base gen n i =
      { x0 := base.x0 + max (base.x1 - base.x0) 0 * ((i : ℚ) / (n : ℚ))
        x1 := base.x0 + max (base.x1 - base.x0) 0 * (((i : ℚ) + 1) / (n : ℚ))
        y0 := base.y0
        y1 := base.y1 } := by
  unfold pieceClip
  rw [if_pos h]

theorem pieceClip_odd (base : Clip) (gen n i : Nat) (h : gen % 2 = 1) :
    pieceClip base gen n i =
      { x0 := base.x0
        x1 := base.x1
        y0 := base.y0 + max (base.y1 - base.y0) 0 * ((i : ℚ) / (n : ℚ))
        y1 := base.y0 + max (base.y1 - base.y0) 0 * (((i : ℚ) + 1) / (n : ℚ)) } := by
  unfold pieceClip
  rw [if_neg (by omega)]

/-- C9: for every plan and piece count of at least 2, `splitIntoPieces`
returns exactly `pieceCount` pieces whose rectangular clip windows tile
the parent's (well-formed) window along one axis: consecutive pieces
share a boundary coordinate, interiors are pairwise disjoint, the union
of the windows is the parent window, and every piece keeps the parent's
color, entries, zBase, brightness and forceTop flag. -/
theorem C9_split_tiling (plan : Plan) (n : Nat) (hn : 2 ≤ n)
    (hwf : (plan.clip.getD defaultClip).x0 ≤ (plan.clip.getD defaultClip).x1 ∧
      (plan.clip.getD defaultClip).y0 ≤ (plan.clip.getD defaultClip).y1) :
    ∃ pieces, splitIntoPieces plan n = some pieces ∧
      pieces.length = n ∧
      (∀ i (hi2 : i < pieces.length), pieces.get ⟨i, hi2⟩ = splitPiece plan n i) ∧
      (∀ q ∈ pieces, q.color = plan.color ∧ q.entries = plan.entries ∧
        q.zBase = plan.zBase ∧ q.brightness = plan.brightness ∧
        q.forceTop = plan.forceTop) ∧
      (∀ i, i + 1 < n →
        (plan.splitGeneration % 2 = 0 →
          ((splitPiece plan n i).clip.getD defaultClip).x1 =
            ((splitPiece plan n (i + 1)).clip.getD defaultClip).x0 ∧
          ((splitPiece plan n i).clip.getD defaultClip).y0 =
            ((splitPiece plan n (i + 1)).clip.getD defaultClip).y0 ∧
          ((splitPiece plan n i).clip.getD defaultClip).y1 =
            ((splitPiece plan n (i + 1)).clip.getD defaultClip).y1) ∧
        (plan.splitGeneration % 2 = 1 →
          ((splitPiece plan n i).clip.getD defaultClip).y1 =
            ((splitPiece plan n (i + 1)).clip.getD defaultClip).y0 ∧
          ((splitPiece plan n i).clip.getD defaultClip).x0 =
            ((splitPiece plan n (i + 1)).clip.getD defaultClip).x0 ∧
          ((splitPiece plan n i).clip.getD defaultClip).x1 =
            ((splitPiece plan n (i + 1)).clip.getD defaultClip).x1)) ∧
      (∀ i j, i < j → j < n →
        windowInterior ((splitPiece plan n i).clip.getD defaultClip) ∩
          windowInterior ((splitPiece plan n j).clip.getD defaultClip) = ∅) ∧
      (⋃ q ∈ pieces, windowSet (q.clip.getD defaultClip)) =
        windowSet (plan.clip.getD defaultClip) := by
  refine ⟨(List.range n).map (splitPiece plan n), splitIntoPieces_eq plan n hn,
    by simp, ?_, ?_, ?_, ?_, ?_⟩
  · intro i hi2
    simp [List.get_map, List.get_range]
  · intro q hq
    rcases List.mem_map.mp hq with ⟨i, _, rfl⟩
    exact ⟨rfl, rfl, rfl, rfl, rfl⟩
  · intro i hi
    constructor
    · intro hg
      rw [splitPiece_clip_getD, splitPiece_clip_getD, pieceClip_even _ _ _ _ hg,
        pieceClip_even _ _ _ _ hg]
      refine ⟨?_, rfl, rfl⟩
      show (plan.clip.getD defaultClip).x0 +
          max ((plan.clip.getD defaultClip).x1 - (plan.clip.getD defaultClip).x0) 0 *
            (((i : ℚ) + 1) / (n : ℚ)) =
        (plan.clip.getD defaultClip).x0 +
          max ((plan.clip.getD defaultClip).x1 - (plan.clip.getD defaultClip).x0) 0 *
            (((i + 1 : Nat) : ℚ) / (n : ℚ))
      push_cast
      ring
    · intro hg
      rw [splitPiece_clip_getD, splitPiece_clip_getD, pieceClip_odd _ _ _ _ hg,
        pieceClip_odd _ _ _ _ hg]
      refine ⟨?_, rfl, rfl⟩
      show (plan.clip.getD defaultClip).y0 +
          max ((plan.clip.getD defaultClip).y1 - (plan.clip.getD defaultClip).y0) 0 *
            (((i : ℚ) + 1) / (n : ℚ)) =
        (plan.clip.getD defaultClip).y0 +
          max ((plan.clip.getD defaultClip).y1 - (plan.clip.getD defaultClip).y0) 0 *
            (((i + 1 : Nat) : ℚ) / (n : ℚ))
      push_cast
      ring
  · intro i j hij hj
    apply Set.eq_empty_iff_forall_not_mem.mpr
    intro p hp
    rcases hp with ⟨hpi, hpj⟩
    rcases Nat.mod_two_eq_zero_or_one plan.splitGeneration with hg | hg
    · rw [splitPiece_clip_getD, pieceClip_even _ _ _ _ hg] at hpi hpj
      simp only [windowInterior, Set.mem_setOf_eq] at hpi hpj
      obtain ⟨hi1, hi2, _, _⟩ := hpi
      obtain ⟨hj1, _, _, _⟩ := hpj
      have hmono := subdiv_mono (plan.clip.getD defaultClip).x0
        (max ((plan.clip.getD defaultClip).x1 - (plan.clip.getD defaultClip).x0) 0)
        (le_max_right _ _) n (by omega) (i + 1) j (by omega)
      push_cast at hmono
      linarith
    · rw [splitPiece_clip_getD, pieceClip_odd _ _ _ _ hg] at hpi hpj
      simp only [windowInterior, Set.mem_setOf_eq] at hpi hpj
      obtain ⟨_, _, hi3, hi4⟩ := hpi
      obtain ⟨_, _, hj3, _⟩ := hpj
      have hmono := subdiv_mono (plan.clip.getD defaultClip).y0
        (max ((plan.clip.getD defaultClip).y1 - (plan.clip.getD defaultClip).y0) 0)
        (le_max_right _ _) n (by omega) (i + 1) j (by omega)
      push_cast at hmono
      linarith
  · apply Set.ext
    intro p
    simp only [Set.mem_iUnion, exists_prop]
    constructor
    · rintro ⟨q, hq, hpq⟩
      rcases List.mem_map.mp hq with ⟨i, hi, rfl⟩
      have hi' : i < n := List.mem_range.mp hi
      rcases Nat.mod_two_eq_zero_or_one plan.splitGeneration with hg | hg
      · rw [splitPiece_clip_getD, pieceClip_even _ _ _ _ hg] at hpq
        simp only [windowSet, Set.mem_setOf_eq] at hpq ⊢
        obtain ⟨h1, h2, h3, h4⟩ := hpq
        have hs : max ((plan.clip.getD defaultClip).x1 - (plan.clip.getD defaultClip).x0) 0 =
            (plan.clip.getD defaultClip).x1 - (plan.clip.getD defaultClip).x0 :=
          max_eq_left (by linarith [hwf.1])
        have h0 := subdiv_mono (plan.clip.getD defaultClip).x0
          (max ((plan.clip.getD defaultClip).x1 - (plan.clip.getD defaultClip).x0) 0)
          (le_max_right _ _) n (by omega) 0 i (by omega)
        simp only [Nat.cast_zero, zero_div, mul_zero, add_zero] at h0
        have hh := subdiv_mono (plan.clip.getD defaultClip).x0
          (max ((plan.clip.getD defaultClip).x1 - (plan.clip.getD defaultClip).x0) 0)
          (le_max_right _ _) n (by omega) (i + 1) n (by omega)
        rw [subdiv_last _ _ n (by omega)] at hh
        push_cast at hh
        rw [hs] at hh h0 h1 h2
        exact ⟨by linarith, by linarith, h3, h4⟩
      · rw [splitPiece_clip_getD, pieceClip_odd _ _ _ _ hg] at hpq
        simp only [windowSet, Set.mem_setOf_eq] at hpq ⊢
        obtain ⟨h1, h2, h3, h4⟩ := hpq
        have hs : max ((plan.clip.getD defaultClip).y1 - (plan.clip.getD defaultClip).y0) 0 =
            (plan.clip.getD defaultClip).y1 - (plan.clip.getD defaultClip).y0 :=
          max_eq_left (by linarith [hwf.2])
        have h0 := subdiv_mono (plan.clip.getD defaultClip).y0
          (max ((plan.clip.getD defaultClip).y1 - (plan.clip.getD defaultClip).y0) 0)
          (le_max_right _ _) n (by omega) 0 i (by omega)
        simp only [Nat.cast_zero, zero_div, mul_zero, add_zero] at h0
        have hh := subdiv_mono (plan.clip.getD defaultClip).y0
          (max ((plan.clip.getD defaultClip).y1 - (plan.clip.getD defaultClip).y0) 0)
          (le_max_right _ _) n (by omega) (i + 1) n (by omega)
        rw [subdiv_last _ _ n (by omega)] at hh
        push_cast at hh
        rw [hs] at hh h0 h3 h4
        exact ⟨h1, h2, by linarith, by linarith⟩
    · intro hp
      simp only [windowSet, Set.mem_setOf_eq] at hp
      obtain ⟨h1, h2, h3, h4⟩ := hp
      rcases Nat.mod_two_eq_zero_or_one plan.splitGeneration with hg | hg
      · have hs : max ((plan.clip.getD defaultClip).x1 - (plan.clip.getD defaultClip).x0) 0 =
            (plan.clip.getD defaultClip).x1 - (plan.clip.getD defaultClip).x0 :=
          max_eq_left (by linarith [hwf.1])
        rcases subdiv_mem (plan.clip.getD defaultClip).x0
            (max ((plan.clip.getD defaultClip).x1 - (plan.clip.getD defaultClip).x0) 0)
            (le_max_right _ _) n (by omega) p.1 h1 (by rw [hs]; linarith)
          with ⟨i, hi, hl, hh⟩
        refine ⟨splitPiece plan n i, List.mem_map.mpr ⟨i, List.mem_range.mpr hi, rfl⟩, ?_⟩
        rw [splitPiece_clip_getD, pieceClip_even _ _ _ _ hg]
        simp only [windowSet, Set.mem_setOf_eq]
        exact ⟨hl, hh, h3, h4⟩
      · have hs : max ((plan.clip.getD defaultClip).y1 - (plan.clip.getD defaultClip).y0) 0 =
            (plan.clip.getD defaultClip).y1 - (plan.clip.getD defaultClip).y0 :=
          max_eq_left (by linarith [hwf.2])
        rcases subdiv_mem (plan.clip.getD defaultClip).y0
            (max ((plan.clip.getD defaultClip).y1 - (plan.clip.getD defaultClip).y0) 0)
            (le_max_right _ _) n (by omega) p.2 h3 (by rw [hs]; linarith)
          with ⟨i, hi, hl, hh⟩
        refine ⟨splitPiece plan n i, List.mem_map.mpr ⟨i, List.mem_range.mpr hi, rfl⟩, ?_⟩
        rw [splitPiece_clip_getD, pieceClip_odd _ _ _ _ hg]
        simp only [windowSet, Set.mem_setOf_eq]
        exact ⟨h1, h2, hl, hh⟩

theorem C9_split_tiling_witness :
    ((2 : Nat) ≤ 2 ∧
      ((planSmall.clip.getD defaultClip).x0 ≤ (planSmall.clip.getD defaultClip).x1 ∧
        (planSmall.clip.getD defaultClip).y0 ≤ (planSmall.clip.getD defaultClip).y1)) ∧
    ∃ pieces, splitIntoPieces planSmall 2 = some pieces ∧
      pieces.length = 2 ∧
      (∀ i (hi2 : i < pieces.length), pieces.get ⟨i, hi2⟩ = splitPiece planSmall 2 i) ∧
      (∀ q ∈ pieces, q.color = planSmall.color ∧ q.entries = planSmall.entries ∧
        q.zBase = planSmall.zBase ∧ q.brightness = planSmall.brightness ∧
        q.forceTop = planSmall.forceTop) ∧
      (∀ i, i + 1 < 2 →
        (planSmall.splitGeneration % 2 = 0 →
          ((splitPiece planSmall 2 i).clip.getD defaultClip).x1 =
            ((splitPiece planSmall 2 (i + 1)).clip.getD defaultClip).x0 ∧
          ((splitPiece planSmall 2 i).clip.getD defaultClip).y0 =
            ((splitPiece planSmall 2 (i + 1)).clip.getD defaultClip).y0 ∧
          ((splitPiece planSmall 2 i).clip.getD defaultClip).y1 =
            ((splitPiece planSmall 2 (i + 1)).clip.getD defaultClip).y1) ∧
        (planSmall.splitGeneration % 2 = 1 →
          ((splitPiece planSmall 2 i).clip.getD defaultClip).y1 =
            ((splitPiece planSmall 2 (i + 1)).clip.getD defaultClip).y0 ∧
          ((splitPiece planSmall 2 i).clip.getD defaultClip).x0 =
            ((splitPiece planSmall 2 (i + 1)).clip.getD defaultClip).x0 ∧
          ((splitPiece planSmall 2 i).clip.getD defaultClip).x1 =
            ((splitPiece planSmall 2 (i + 1)).clip.getD defaultClip).x1)) ∧
      (∀ i j, i < j → j < 2 →
        windowInterior ((splitPiece planSmall 2 i).clip.getD defaultClip) ∩
          windowInterior ((splitPiece planSmall 2 j).clip.getD defaultClip) = ∅) ∧
      (⋃ q ∈ pieces, windowSet (q.clip.getD defaultClip)) =
        windowSet (planSmall.clip.getD defaultClip) :=
  ⟨⟨le_refl 2, by decide, by decide⟩,
   C9_split_tiling planSmall 2 (le_refl 2) ⟨by decide, by decide⟩⟩
